import Mathlib

/-!
Verification of the test-steps timeline builder (`useGetTestSections`),
the event-merging/partitioning core of the repository.

The embedding below is a direct translation of the TypeScript source:
timestamps are integers — the source manipulates JS numbers with `+`, `-`,
`Math.min`, `Math.max` and order comparisons only, so the algorithm is
uniform in any linearly ordered additive group of times and `ℤ` (whose
arithmetic is kernel-computable) represents them.  The JS `Infinity` seed
of the window's running minimum is the `none` case of an `Option ℤ`,
optional fields are `Option`, and `Array.prototype.sort` (a stable sort by
the supplied comparator) is modelled by stable insertion sort with
`le a b := comparator a b ≤ 0`.

The record/annotation types consumed by the hook (`TestStep`, the
annotation records, `RequestSummary`) are declared outside the source
tree; their fields are taken from the way the algorithm reads them and
from the data-model section of the specification.  The external
normalizer `partialRequestsToCompleteSummaries` is an excluded
collaborator: the pipeline takes its output (the list of complete
request summaries) as an input.
-/

namespace ReplayTimeline

/-- An annotation's message, correlated to a step by its `id`. -/
structure AnnotationMessage where
  id : String
deriving DecidableEq, Repr

/-- A reporter annotation: a message plus an absolute timestamp. -/
structure Annotation where
  message : AnnotationMessage
  time : ℤ
deriving DecidableEq, Repr

/-- The display message carried by a navigation annotation. -/
structure CypressAnnotationMessage where
  url : String
deriving DecidableEq, Repr

/-- A navigation annotation: a display message plus an absolute timestamp. -/
structure NavigationAnnotation where
  message : CypressAnnotationMessage
  time : ℤ
deriving DecidableEq, Repr

/-- A raw test step as supplied to the hook.  `error` records the presence
of the optional error object; `hook` is the optional hook classification
string. -/
structure TestStep where
  id : String
  name : String
  relativeStartTime : ℤ
  duration : Option ℤ
  error : Bool
  hook : Option String
deriving DecidableEq, Repr

/-- A complete network request summary, as produced by the external
normalizer.  `endTime` is the source's optional `end` field (`end` is a
reserved word in Lean). -/
structure RequestSummary where
  id : String
  cause : String
  endTime : Option ℤ
deriving DecidableEq, Repr

/-- The `annotations` record stored on an annotated step
(`{end, enqueue, start}`). -/
structure StepAnnotations where
  «end» : Option Annotation
  enqueue : Option Annotation
  start : Option Annotation
deriving DecidableEq, Repr

/-- The `AnnotatedTestStep` record: the spread `...s` of the raw step together with the
resolved fields the hook adds (`absoluteStartTime`, `absoluteEndTime`,
`duration`, `index`, `annotations`).  The spread's raw `duration` is
shadowed by the resolved one. -/
structure AnnotatedTestStep where
  toTestStep : TestStep
  absoluteStartTime : ℤ
  absoluteEndTime : ℤ
  duration : ℤ
  index : ℕ
  annotations : StepAnnotations
deriving DecidableEq, Repr

/-- The `hook` field read off an annotated step (inherited from the spread
raw step). -/
def AnnotatedTestStep.hook (e : AnnotatedTestStep) : Option String :=
  e.toTestStep.hook

/-- The `StepEvent` variant record `{time, type: "step", event}`. -/
structure StepEvent where
  time : ℤ
  event : AnnotatedTestStep
deriving DecidableEq, Repr

/-- The `NetworkEvent` variant record `{time, type: "network", event}`. -/
structure NetworkTimelineEvent where
  time : ℤ
  event : RequestSummary
deriving DecidableEq, Repr

/-- The `NavigationEvent` variant record `{time, type: "navigation", event}`. -/
structure NavigationEvent where
  time : ℤ
  event : CypressAnnotationMessage
deriving DecidableEq, Repr

/-- The `CompositeTestEvent` tagged union over the three variants. -/
inductive CompositeTestEvent where
  | step : StepEvent → CompositeTestEvent
  | network : NetworkTimelineEvent → CompositeTestEvent
  | navigation : NavigationEvent → CompositeTestEvent
deriving DecidableEq, Repr

/-- The `time` field shared by all three variants. -/
def CompositeTestEvent.time : CompositeTestEvent → ℤ
  | .step e => e.time
  | .network e => e.time
  | .navigation e => e.time

/-- Whether an event's `type` tag is `"step"`. -/
def CompositeTestEvent.isStep : CompositeTestEvent → Bool
  | .step _ => true
  | _ => false

/-- The step id carried by a `step` event, if any (used to state concrete
scenarios compactly). -/
def CompositeTestEvent.stepId : CompositeTestEvent → Option String
  | .step e => some e.event.toTestStep.id
  | _ => none

/-- The lookup `annotationsX.find(a => a.message.id === s.id)`. -/
def findAnnotation (anns : List Annotation) (s : TestStep) : Option Annotation :=
  anns.find? fun a => a.message.id == s.id

/-- The binding `let duration = s.duration || 1` — `0` and a missing field
are falsy. -/
def effectiveDuration (s : TestStep) : ℤ :=
  match s.duration with
  | some d => if d = 0 then 1 else d
  | none => 1

/-- The resolution `annotations.start?.time ?? startTime + s.relativeStartTime`. -/
def resolvedStartTime (startTime : ℤ) (annotationsStart : List Annotation)
    (s : TestStep) : ℤ :=
  match findAnnotation annotationsStart s with
  | some a => a.time
  | none => startTime + s.relativeStartTime

/-- The resolution `annotations.end?.time ?? absoluteStartTime + duration` — the
provisional end time, before the minus-one normalization. -/
def provisionalEndTime (startTime : ℤ)
    (annotationsEnd annotationsStart : List Annotation) (s : TestStep) : ℤ :=
  match findAnnotation annotationsEnd s with
  | some a => a.time
  | none => resolvedStartTime startTime annotationsStart s + effectiveDuration s

/-- Lines 148–184 of the hook: build the `StepEvent` for step `s` at index
`i`, including the `"assert"` special case (which mutates the local
`absoluteStartTime` / `absoluteEndTime` / `annotations` / `duration`
bindings before the record is built), and store
`absoluteEndTime := absoluteEndTime - 1`. -/
def stepEventOf (startTime : ℤ)
    (annotationsEnd annotationsEnqueue annotationsStart : List Annotation)
    (i : ℕ) (s : TestStep) : StepEvent :=
  let annEnd := findAnnotation annotationsEnd s
  let annEnqueue := findAnnotation annotationsEnqueue s
  let annStart := findAnnotation annotationsStart s
  let duration := effectiveDuration s
  let absoluteStartTime := resolvedStartTime startTime annotationsStart s
  let absoluteEndTime := provisionalEndTime startTime annotationsEnd annotationsStart s
  if s.name = "assert" then
    if s.error then
      -- start failed asserts at their end time (absoluteStartTime := absoluteEndTime - 1,
      -- annotations.start := annotations.end, duration := 1)
      { time := absoluteEndTime - 1,
        event := { toTestStep := s, absoluteStartTime := absoluteEndTime - 1,
                   absoluteEndTime := absoluteEndTime - 1, duration := 1, index := i,
                   annotations := { «end» := annEnd, enqueue := annEnqueue, start := annEnd } } }
    else
      -- successful asserts at their start time (absoluteEndTime := absoluteStartTime + 1,
      -- annotations.end := annotations.start, duration := 1)
      { time := absoluteStartTime,
        event := { toTestStep := s, absoluteStartTime := absoluteStartTime,
                   absoluteEndTime := absoluteStartTime + 1 - 1, duration := 1, index := i,
                   annotations := { «end» := annStart, enqueue := annEnqueue, start := annStart } } }
  else
    { time := absoluteStartTime,
      event := { toTestStep := s, absoluteStartTime := absoluteStartTime,
                 absoluteEndTime := absoluteEndTime - 1, duration := duration, index := i,
                 annotations := { «end» := annEnd, enqueue := annEnqueue, start := annStart } } }

/-- A map with the element index, as `Array.prototype.map` passes it
(structurally recursive so
that concrete runs reduce). -/
def mapWithIndex {α β : Type} (f : ℕ → α → β) : ℕ → List α → List β
  | _, [] => []
  | i, x :: xs => f i x :: mapWithIndex f (i + 1) xs

lemma length_mapWithIndex {α β : Type} (f : ℕ → α → β) :
    ∀ (i : ℕ) (l : List α), (mapWithIndex f i l).length = l.length := by
  intro i l
  induction l generalizing i with
  | nil => rfl
  | cons x xs ih => simp [mapWithIndex, ih]

/-- The list `const stepsByTime = steps.map((s, i) => ...)`. -/
def stepsByTime (startTime : ℤ)
    (annotationsEnd annotationsEnqueue annotationsStart : List Annotation)
    (steps : List TestStep) : List StepEvent :=
  mapWithIndex
    (fun i s =>
      stepEventOf startTime annotationsEnd annotationsEnqueue annotationsStart i s)
    0 steps

/-- The accumulator of the `times` reduce: `{min, max}`, seeded with
`{min: Infinity, max: 0}`.  `none` plays `Infinity`. -/
structure StepTimes where
  min : Option ℤ
  max : ℤ
deriving DecidableEq, Repr

/-- The JS `Math.max` of two numbers. -/
def jsMax (a b : ℤ) : ℤ := if a ≤ b then b else a

/-- The JS `Math.min` against a running minimum whose `none` case is
`Infinity`. -/
def jsMin : Option ℤ → ℤ → Option ℤ
  | none, x => some x
  | some m, x => some (if m ≤ x then m else x)

/-- The body of the `times` reduce (lines 187–190). -/
def timesStep (acc : StepTimes) (s : StepEvent) : StepTimes :=
  { min := jsMin acc.min s.event.absoluteStartTime,
    max := jsMax acc.max s.event.absoluteEndTime }

/-- The `times` reduce over the step events (lines 186–192). -/
def timesOf (l : List StepEvent) : StepTimes :=
  l.foldl timesStep { min := none, max := 0 }

/-- The comparison `time >= times.min`, where a `none` minimum is `Infinity`
(so the
comparison is false for every finite time). -/
def leInfinity : Option ℤ → ℤ → Bool
  | none, _ => false
  | some m, t => decide (m ≤ t)

/-- The predicate `isDuringSteps(time)`: `time >= times.min && time < times.max`. -/
def isDuringSteps (times : StepTimes) (t : ℤ) : Bool :=
  leInfinity times.min t && decide (t < times.max)

/-- The list `networkDataByTime` (lines 198–202): keep summaries whose cause is
`xhr`/`fetch` with a defined, in-window end time, and wrap them with
`time := n.end!` (the filter guarantees presence, so `getD 0` is that
non-null assertion). -/
def networkDataByTime (times : StepTimes)
    (summaries : List RequestSummary) : List NetworkTimelineEvent :=
  (summaries.filter fun n =>
      (n.cause == "xhr" || n.cause == "fetch") &&
        (match n.endTime with
         | some t => isDuringSteps times t
         | none => false)).map
    fun n => { time := n.endTime.getD 0, event := n }

/-- The list `navigationEventsByTime` (lines 204–206). -/
def navigationEventsByTime (times : StepTimes)
    (navigationEvents : List NavigationAnnotation) : List NavigationEvent :=
  (navigationEvents.filter fun e => isDuringSteps times e.time).map
    fun n => { time := n.time, event := n.message }

/-- The sort comparator (lines 208–221): steps with differing hooks are
ordered by hook first (`beforeEach` least, `afterEach` greatest); every
other comparison falls through to `a.time - b.time`. -/
def sortComparator (a b : CompositeTestEvent) : ℤ :=
  match a, b with
  | .step sa, .step sb =>
    if sa.event.hook ≠ sb.event.hook then
      if sa.event.hook = some "beforeEach" ∧ sb.event.hook ≠ some "beforeEach" then -1
      else if sa.event.hook = some "afterEach" ∧ sb.event.hook ≠ some "afterEach" then 1
      else (CompositeTestEvent.step sa).time - (CompositeTestEvent.step sb).time
    else (CompositeTestEvent.step sa).time - (CompositeTestEvent.step sb).time
  | a, b => a.time - b.time

/-- The order a stable sort by `sortComparator` realizes: `a` may stay
before `b` exactly when the comparator is nonpositive. -/
def sortLe (a b : CompositeTestEvent) : Prop :=
  sortComparator a b ≤ 0

instance : DecidableRel sortLe := fun a b => inferInstanceAs (Decidable (_ ≤ _))

/-- The three output buckets.  The partitioning loop addresses them through
the `currentStack` pointer; pointer identity (`currentStack !== beforeEach`)
becomes equality of this tag. -/
inductive BucketId where
  | beforeEach
  | testBody
  | afterEach
deriving DecidableEq, Repr

/-- The mutable state of the partitioning loop (lines 223–228). -/
structure PartitionState where
  beforeEach : List CompositeTestEvent
  testBody : List CompositeTestEvent
  afterEach : List CompositeTestEvent
  currentStack : BucketId
  nonStepStack : List CompositeTestEvent
deriving DecidableEq, Repr

/-- The initial state: `currentStack = beforeEach; nonStepStack = []` with
empty buckets. -/
def initialState : PartitionState :=
  { beforeEach := [], testBody := [], afterEach := [],
    currentStack := .beforeEach, nonStepStack := [] }

/-- The list the `currentStack` pointer designates. -/
def currentList (st : PartitionState) : List CompositeTestEvent :=
  match st.currentStack with
  | .beforeEach => st.beforeEach
  | .testBody => st.testBody
  | .afterEach => st.afterEach

/-- The push `currentStack.push(...l)`. -/
def pushCurrent (st : PartitionState) (l : List CompositeTestEvent) : PartitionState :=
  match st.currentStack with
  | .beforeEach => { st with beforeEach := st.beforeEach ++ l }
  | .testBody => { st with testBody := st.testBody ++ l }
  | .afterEach => { st with afterEach := st.afterEach ++ l }

/-- The flush `currentStack.push(...nonStepStack.splice(0, nonStepStack.length))`. -/
def flushNonStep (st : PartitionState) : PartitionState :=
  { pushCurrent st st.nonStepStack with nonStepStack := [] }

/-- JS falsiness of the `hook` string (`!e.event.hook`): missing or empty. -/
def jsFalsyHook : Option String → Bool
  | none => true
  | some h => h == ""

/-- The `stackChanged` / `currentStack` pair computed by the step branch of
the loop (lines 232–242): the hook decides the target bucket, an
unrecognized truthy hook leaves the current stack untouched. -/
def stepTarget (st : PartitionState) (hook : Option String) : Bool × BucketId :=
  if hook = some "beforeEach" then
    (decide (st.currentStack ≠ .beforeEach), BucketId.beforeEach)
  else if hook = some "afterEach" then
    (decide (st.currentStack ≠ .afterEach), BucketId.afterEach)
  else if jsFalsyHook hook then
    (decide (st.currentStack ≠ .testBody), BucketId.testBody)
  else (false, st.currentStack)

/-- One iteration of the partitioning loop (lines 230–255). -/
def processEvent (st : PartitionState) (e : CompositeTestEvent) : PartitionState :=
  match e with
  | .step se =>
    let sc := stepTarget st se.event.hook
    let st1 := { st with currentStack := sc.2 }
    let st2 := if sc.1 = false then flushNonStep st1 else st1
    let st3 := pushCurrent st2 [e]
    flushNonStep st3
  | e =>
    if (currentList st).length ≠ 0 then
      { st with nonStepStack := st.nonStepStack ++ [e] }
    else st

/-- The trailing flush (lines 257–265): leftover pending events are pushed
onto `afterEach`, else `testBody`, else `beforeEach`. -/
def finalizeSections (st : PartitionState) : PartitionState :=
  if st.nonStepStack.length ≠ 0 then
    if st.afterEach.length ≠ 0 then
      { st with afterEach := st.afterEach ++ st.nonStepStack }
    else if st.testBody.length ≠ 0 then
      { st with testBody := st.testBody ++ st.nonStepStack }
    else if st.beforeEach.length ≠ 0 then
      { st with beforeEach := st.beforeEach ++ st.nonStepStack }
    else st
  else st

/-- The hook's return value `{beforeEach, testBody, afterEach}`. -/
structure TestSections where
  beforeEach : List CompositeTestEvent
  testBody : List CompositeTestEvent
  afterEach : List CompositeTestEvent
deriving DecidableEq, Repr

/-- The final `return { beforeEach, testBody, afterEach }`. -/
def toSections (st : PartitionState) : TestSections :=
  { beforeEach := st.beforeEach, testBody := st.testBody, afterEach := st.afterEach }

/-- The concatenation of the three buckets in hook order. -/
def TestSections.concat (r : TestSections) : List CompositeTestEvent :=
  r.beforeEach ++ r.testBody ++ r.afterEach

/-- The merged input of the sort:
`[...networkDataByTime, ...stepsByTime, ...navigationEventsByTime]`. -/
def allEventsOf (startTime : ℤ) (steps : List TestStep)
    (navigationEvents : List NavigationAnnotation)
    (annotationsEnqueue annotationsEnd annotationsStart : List Annotation)
    (summaries : List RequestSummary) : List CompositeTestEvent :=
  let sbt := stepsByTime startTime annotationsEnd annotationsEnqueue annotationsStart steps
  let times := timesOf sbt
  (networkDataByTime times summaries).map CompositeTestEvent.network ++
    sbt.map CompositeTestEvent.step ++
    (navigationEventsByTime times navigationEvents).map CompositeTestEvent.navigation

/-- The list `allEvents` after `.sort(comparator)` — JS `Array.prototype.sort`
with a
comparator is a stable sort, modelled by stable insertion sort on `sortLe`. -/
def sortedEventsOf (startTime : ℤ) (steps : List TestStep)
    (navigationEvents : List NavigationAnnotation)
    (annotationsEnqueue annotationsEnd annotationsStart : List Annotation)
    (summaries : List RequestSummary) : List CompositeTestEvent :=
  List.insertionSort sortLe
    (allEventsOf startTime steps navigationEvents annotationsEnqueue
      annotationsEnd annotationsStart summaries)

/-- The whole hook body (lines 147–267): normalize, window, filter, sort,
partition, trailing flush. -/
def useGetTestSections (startTime : ℤ) (steps : List TestStep)
    (navigationEvents : List NavigationAnnotation)
    (annotationsEnqueue annotationsEnd annotationsStart : List Annotation)
    (summaries : List RequestSummary) : TestSections :=
  let allEvents := sortedEventsOf startTime steps navigationEvents
    annotationsEnqueue annotationsEnd annotationsStart summaries
  toSections (finalizeSections (allEvents.foldl processEvent initialState))

/-! ## Contents of the partition: multiset bookkeeping

The partitioning loop moves events between the three buckets and the
pending side-buffer but — once a first step has been appended — never
discards one.  The lemmas below track the combined contents. -/

/-- Everything the partition state holds: the three buckets plus the
pending side-buffer, as a multiset. -/
def stContents (st : PartitionState) : Multiset CompositeTestEvent :=
  (st.beforeEach : Multiset CompositeTestEvent) + ↑st.testBody + ↑st.afterEach +
    ↑st.nonStepStack

/-- Everything the returned sections hold, as a multiset. -/
def sectionsContents (r : TestSections) : Multiset CompositeTestEvent :=
  (r.beforeEach : Multiset CompositeTestEvent) + ↑r.testBody + ↑r.afterEach

lemma sectionsContents_eq_concat (r : TestSections) :
    sectionsContents r = ↑r.concat := by
  simp [sectionsContents, TestSections.concat]

lemma currentStack_pushCurrent (st : PartitionState) (l : List CompositeTestEvent) :
    (pushCurrent st l).currentStack = st.currentStack := by
  rcases st with ⟨b, t, a, cur, n⟩
  cases cur <;> rfl

lemma stContents_pushCurrent (st : PartitionState) (l : List CompositeTestEvent) :
    stContents (pushCurrent st l) = stContents st + ↑l := by
  rcases st with ⟨b, t, a, cur, n⟩
  cases cur <;>
    simp only [pushCurrent, stContents, ← Multiset.coe_add] <;> abel

lemma currentList_pushCurrent (st : PartitionState) (l : List CompositeTestEvent) :
    currentList (pushCurrent st l) = currentList st ++ l := by
  rcases st with ⟨b, t, a, cur, n⟩
  cases cur <;> rfl

lemma stContents_flushNonStep (st : PartitionState) :
    stContents (flushNonStep st) = stContents st := by
  rcases st with ⟨b, t, a, cur, n⟩
  cases cur <;>
    simp only [flushNonStep, pushCurrent, stContents, ← Multiset.coe_add,
      Multiset.coe_nil] <;> abel

lemma currentList_flushNonStep (st : PartitionState) :
    currentList (flushNonStep st) = currentList st ++ st.nonStepStack := by
  rcases st with ⟨b, t, a, cur, n⟩
  cases cur <;> rfl

lemma stContents_currentStack (st : PartitionState) (c : BucketId) :
    stContents { st with currentStack := c } = stContents st := rfl

lemma stContents_processEvent_step (st : PartitionState) (se : StepEvent) :
    stContents (processEvent st (.step se)) =
      stContents st + {CompositeTestEvent.step se} := by
  simp only [processEvent]
  rcases hst : stepTarget st se.event.hook with ⟨changed, tgt⟩
  cases changed <;>
    simp only [Bool.false_eq_true, if_true, if_false, reduceCtorEq,
      stContents_flushNonStep, stContents_pushCurrent, stContents_currentStack,
      ← Multiset.coe_singleton]

lemma stContents_processEvent_nonStep (st : PartitionState) (e : CompositeTestEvent)
    (hne : e.isStep = false) (h : currentList st ≠ []) :
    stContents (processEvent st e) = stContents st + {e} := by
  cases e with
  | step se => simp [CompositeTestEvent.isStep] at hne
  | network n =>
    have hl : (currentList st).length ≠ 0 := by simpa using h
    simp only [processEvent, if_pos hl, stContents, ← Multiset.coe_add,
      ← Multiset.coe_singleton]
    abel
  | navigation n =>
    have hl : (currentList st).length ≠ 0 := by simpa using h
    simp only [processEvent, if_pos hl, stContents, ← Multiset.coe_add,
      ← Multiset.coe_singleton]
    abel

lemma currentList_processEvent_step (st : PartitionState) (se : StepEvent) :
    currentList (processEvent st (.step se)) ≠ [] := by
  show currentList (flushNonStep (pushCurrent _ _)) ≠ []
  rw [currentList_flushNonStep, currentList_pushCurrent]
  simp

lemma currentList_processEvent_ne (st : PartitionState) (e : CompositeTestEvent)
    (h : currentList st ≠ []) : currentList (processEvent st e) ≠ [] := by
  cases e with
  | step se => exact currentList_processEvent_step st se
  | network n =>
    by_cases hl : (currentList st).length ≠ 0
    · simp only [processEvent, if_pos hl]
      cases hc : st.currentStack <;> simp_all [currentList]
    · simp only [processEvent, if_neg hl]
      exact h
  | navigation n =>
    by_cases hl : (currentList st).length ≠ 0
    · simp only [processEvent, if_pos hl]
      cases hc : st.currentStack <;> simp_all [currentList]
    · simp only [processEvent, if_neg hl]
      exact h

lemma currentList_foldl_ne (L : List CompositeTestEvent) (st : PartitionState)
    (h : currentList st ≠ []) : currentList (L.foldl processEvent st) ≠ [] := by
  induction L generalizing st with
  | nil => exact h
  | cons e L ih => exact ih _ (currentList_processEvent_ne st e h)

lemma coe_cons_eq (e : CompositeTestEvent) (L : List CompositeTestEvent) :
    (↑(e :: L) : Multiset CompositeTestEvent) = {e} + ↑L := by
  rw [← Multiset.cons_coe, ← Multiset.singleton_add]

lemma stContents_foldl (L : List CompositeTestEvent) (st : PartitionState)
    (h : currentList st ≠ []) :
    stContents (L.foldl processEvent st) = stContents st + ↑L := by
  induction L generalizing st with
  | nil => simp [Multiset.coe_nil]
  | cons e L ih =>
    rw [List.foldl_cons, ih _ (currentList_processEvent_ne st e h), coe_cons_eq]
    cases e with
    | step se =>
      rw [stContents_processEvent_step]
      abel
    | network n =>
      rw [stContents_processEvent_nonStep st (.network n) rfl h]
      abel
    | navigation n =>
      rw [stContents_processEvent_nonStep st (.navigation n) rfl h]
      abel

lemma processEvent_nonStep_empty (st : PartitionState) (e : CompositeTestEvent)
    (hne : e.isStep = false) (h : currentList st = []) : processEvent st e = st := by
  cases e with
  | step se => simp [CompositeTestEvent.isStep] at hne
  | network n => simp [processEvent, h]
  | navigation n => simp [processEvent, h]

lemma foldl_nonSteps_initial (p : List CompositeTestEvent)
    (h : ∀ x ∈ p, x.isStep = false) :
    p.foldl processEvent initialState = initialState := by
  induction p with
  | nil => rfl
  | cons e p ih =>
    rw [List.foldl_cons,
      processEvent_nonStep_empty initialState e (h e (by simp)) rfl]
    exact ih fun x hx => h x (by simp [hx])

lemma sectionsContents_finalize (st : PartitionState) (h : currentList st ≠ []) :
    sectionsContents (toSections (finalizeSections st)) = stContents st := by
  by_cases hp : st.nonStepStack.length ≠ 0
  · by_cases ha : st.afterEach.length ≠ 0
    · simp only [finalizeSections, if_pos hp, if_pos ha, toSections,
        sectionsContents, stContents, ← Multiset.coe_add]
      abel
    · by_cases ht : st.testBody.length ≠ 0
      · simp only [finalizeSections, if_pos hp, if_neg ha, if_pos ht, toSections,
          sectionsContents, stContents, ← Multiset.coe_add]
        abel
      · by_cases hb : st.beforeEach.length ≠ 0
        · simp only [finalizeSections, if_pos hp, if_neg ha, if_neg ht, if_pos hb,
            toSections, sectionsContents, stContents, ← Multiset.coe_add]
          abel
        · exfalso
          apply h
          simp only [ne_eq, not_not, List.length_eq_zero] at ha ht hb
          cases hc : st.currentStack <;> simp [currentList, hc, ha, ht, hb]
  · have hp' : st.nonStepStack = [] := by simpa using hp
    simp only [finalizeSections, if_neg hp, toSections, sectionsContents,
      stContents, hp', Multiset.coe_nil]
    abel

lemma dropWhile_cons_head_false {α : Type} {p : α → Bool} :
    ∀ {l : List α} {e : α} {d : List α}, l.dropWhile p = e :: d → p e = false := by
  intro l
  induction l with
  | nil =>
    intro e d h
    simp at h
  | cons x l ih =>
    intro e d h
    rw [List.dropWhile_cons] at h
    split at h
    · exact ih h
    · cases h
      rename_i hx
      simpa using hx

/-- The combined contents of the returned buckets: the sorted event list
with its leading run of non-step events removed (those are the events the
loop silently drops, because the current bucket is still empty when they
are reached). -/
lemma useGetTestSections_contents (startTime : ℤ) (steps : List TestStep)
    (navigationEvents : List NavigationAnnotation)
    (annotationsEnqueue annotationsEnd annotationsStart : List Annotation)
    (summaries : List RequestSummary) :
    sectionsContents (useGetTestSections startTime steps navigationEvents
        annotationsEnqueue annotationsEnd annotationsStart summaries) =
      ↑((sortedEventsOf startTime steps navigationEvents annotationsEnqueue
          annotationsEnd annotationsStart summaries).dropWhile fun e => !e.isStep) := by
  simp only [useGetTestSections]
  set L := sortedEventsOf startTime steps navigationEvents annotationsEnqueue
    annotationsEnd annotationsStart summaries with hLdef
  conv_lhs =>
    rw [show L = L.takeWhile (fun e => !e.isStep) ++ L.dropWhile (fun e => !e.isStep) from
      (List.takeWhile_append_dropWhile _ _).symm]
  rw [List.foldl_append,
    foldl_nonSteps_initial _ (fun x hx => by simpa using List.mem_takeWhile_imp hx)]
  cases hd : L.dropWhile (fun e => !e.isStep) with
  | nil =>
    simp [finalizeSections, toSections, sectionsContents, initialState, stContents,
      Multiset.coe_nil]
  | cons e d =>
    have he : e.isStep = true := by
      have := dropWhile_cons_head_false hd
      simpa using this
    cases e with
    | step se =>
      rw [List.foldl_cons]
      have h1 : currentList (processEvent initialState (.step se)) ≠ [] :=
        currentList_processEvent_step _ _
      rw [sectionsContents_finalize _ (currentList_foldl_ne d _ h1),
        stContents_foldl d _ h1, stContents_processEvent_step, coe_cons_eq]
      have h0 : stContents initialState = 0 := rfl
      rw [h0, zero_add]
    | network n => simp [CompositeTestEvent.isStep] at he
    | navigation n => simp [CompositeTestEvent.isStep] at he

/-- The concatenated buckets are a permutation of the sorted events minus
the dropped leading non-step run. -/
lemma useGetTestSections_concat_perm (startTime : ℤ) (steps : List TestStep)
    (navigationEvents : List NavigationAnnotation)
    (annotationsEnqueue annotationsEnd annotationsStart : List Annotation)
    (summaries : List RequestSummary) :
    (useGetTestSections startTime steps navigationEvents annotationsEnqueue
        annotationsEnd annotationsStart summaries).concat.Perm
      ((sortedEventsOf startTime steps navigationEvents annotationsEnqueue
          annotationsEnd annotationsStart summaries).dropWhile fun e => !e.isStep) := by
  rw [← Multiset.coe_eq_coe, ← sectionsContents_eq_concat]
  exact useGetTestSections_contents startTime steps navigationEvents
    annotationsEnqueue annotationsEnd annotationsStart summaries

/-- Filtering the merged (unsorted) event list for steps recovers exactly
the normalized step list. -/
lemma allEventsOf_filter_isStep (startTime : ℤ) (steps : List TestStep)
    (navigationEvents : List NavigationAnnotation)
    (annotationsEnqueue annotationsEnd annotationsStart : List Annotation)
    (summaries : List RequestSummary) :
    (allEventsOf startTime steps navigationEvents annotationsEnqueue
        annotationsEnd annotationsStart summaries).filter (·.isStep) =
      (stepsByTime startTime annotationsEnd annotationsEnqueue annotationsStart
          steps).map CompositeTestEvent.step := by
  have h1 : ∀ l : List NetworkTimelineEvent,
      (l.map CompositeTestEvent.network).filter (·.isStep) = [] := by
    intro l
    induction l with
    | nil => rfl
    | cons x l ih => simpa [CompositeTestEvent.isStep] using ih
  have h2 : ∀ l : List StepEvent,
      (l.map CompositeTestEvent.step).filter (·.isStep) =
        l.map CompositeTestEvent.step := by
    intro l
    induction l with
    | nil => rfl
    | cons x l ih => simpa [CompositeTestEvent.isStep] using ih
  have h3 : ∀ l : List NavigationEvent,
      (l.map CompositeTestEvent.navigation).filter (·.isStep) = [] := by
    intro l
    induction l with
    | nil => rfl
    | cons x l ih => simpa [CompositeTestEvent.isStep] using ih
  unfold allEventsOf
  simp only [List.filter_append, h1, h2, h3, List.nil_append, List.append_nil]

/-- The step events of the sorted, drop-normalized list are exactly the
normalized steps, up to permutation. -/
lemma dropWhile_filter_isStep_perm (startTime : ℤ) (steps : List TestStep)
    (navigationEvents : List NavigationAnnotation)
    (annotationsEnqueue annotationsEnd annotationsStart : List Annotation)
    (summaries : List RequestSummary) :
    (((sortedEventsOf startTime steps navigationEvents annotationsEnqueue
        annotationsEnd annotationsStart summaries).dropWhile
          fun e => !e.isStep).filter (·.isStep)).Perm
      ((stepsByTime startTime annotationsEnd annotationsEnqueue annotationsStart
          steps).map CompositeTestEvent.step) := by
  set L := sortedEventsOf startTime steps navigationEvents annotationsEnqueue
    annotationsEnd annotationsStart summaries with hLdef
  have hsplit : L.filter (·.isStep) =
      (L.takeWhile (fun e => !e.isStep)).filter (·.isStep) ++
        (L.dropWhile (fun e => !e.isStep)).filter (·.isStep) := by
    rw [← List.filter_append, List.takeWhile_append_dropWhile]
  have htake : (L.takeWhile (fun e => !e.isStep)).filter (·.isStep) = [] :=
    List.filter_eq_nil_iff.mpr fun a ha => by
      simpa using List.mem_takeWhile_imp ha
  have hfull : (L.filter (·.isStep)).Perm
      ((allEventsOf startTime steps navigationEvents annotationsEnqueue
          annotationsEnd annotationsStart summaries).filter (·.isStep)) :=
    (List.perm_insertionSort sortLe _).filter _
  rw [hsplit, htake, List.nil_append] at hfull
  rw [allEventsOf_filter_isStep] at hfull
  exact hfull

/-! ## Claim C1 -/

/-- C1: for every input, each input step yields exactly one step-variant
`CompositeTestEvent` in the union of the three output buckets — the
step-variant events across `beforeEach`, `testBody` and `afterEach` are, up
to permutation, exactly the normalized step list (no step dropped or
duplicated, whatever its hook value), and their total count equals the
number of input steps. -/
theorem c1_each_step_exactly_once (startTime : ℤ) (steps : List TestStep)
    (navigationEvents : List NavigationAnnotation)
    (annotationsEnqueue annotationsEnd annotationsStart : List Annotation)
    (summaries : List RequestSummary) :
    ((useGetTestSections startTime steps navigationEvents annotationsEnqueue
          annotationsEnd annotationsStart summaries).concat.filter
        (fun e => e.isStep)).Perm
      ((stepsByTime startTime annotationsEnd annotationsEnqueue annotationsStart
          steps).map CompositeTestEvent.step) ∧
    (useGetTestSections startTime steps navigationEvents annotationsEnqueue
          annotationsEnd annotationsStart summaries).beforeEach.countP
        (fun e => e.isStep) +
      (useGetTestSections startTime steps navigationEvents annotationsEnqueue
          annotationsEnd annotationsStart summaries).testBody.countP
        (fun e => e.isStep) +
      (useGetTestSections startTime steps navigationEvents annotationsEnqueue
          annotationsEnd annotationsStart summaries).afterEach.countP
        (fun e => e.isStep) = steps.length := by
  have hperm := useGetTestSections_concat_perm startTime steps navigationEvents
    annotationsEnqueue annotationsEnd annotationsStart summaries
  have h1 := (hperm.filter (fun e => e.isStep)).trans
    (dropWhile_filter_isStep_perm startTime steps navigationEvents
      annotationsEnqueue annotationsEnd annotationsStart summaries)
  refine ⟨h1, ?_⟩
  have hcount : (useGetTestSections startTime steps navigationEvents
      annotationsEnqueue annotationsEnd annotationsStart summaries).concat.countP
        (fun e => e.isStep) = steps.length := by
    rw [List.countP_eq_length_filter, h1.length_eq, List.length_map]
    simp [stepsByTime, length_mapWithIndex]
  rw [← hcount]
  simp only [TestSections.concat, List.countP_append]

/-! ## Claim C5 -/

/-- The single unhooked step of the C5 counterexample (window `[0, 9)`). -/
def c5Step : TestStep :=
  { id := "s1", name := "cmd", relativeStartTime := 0, duration := some 10,
    error := false, hook := none }

/-- The C5 counterexample's network summary: cause `xhr`, end time `0`,
inside the window. -/
def c5Net : RequestSummary := { id := "n1", cause := "xhr", endTime := some 0 }

/-- C5 counterexample: on this input the network event passes the cause and
window filters (it is retained), yet it appears in none of the three
buckets — it sorts before the only step, is reached while the current
bucket is still empty, and is silently dropped.  This falsifies "every
retained CompositeEvent appears in exactly one of the three buckets". -/
theorem c5_counterexample_retained_event_in_no_bucket :
    CompositeTestEvent.network { time := 0, event := c5Net } ∈
        (networkDataByTime (timesOf (stepsByTime 0 [] [] [] [c5Step]))
            [c5Net]).map CompositeTestEvent.network ∧
    CompositeTestEvent.network { time := 0, event := c5Net } ∉
        (useGetTestSections 0 [c5Step] [] [] [] [] [c5Net]).concat := by
  decide

/-- C5 amended: the three buckets are pairwise disjoint and every retained
CompositeEvent appears in exactly one of them, EXCEPT the non-step events
that sort before the first step event, which are dropped and appear in no
bucket — precisely: the concatenation of the three buckets is a permutation
of the sorted retained-event list with its leading run of non-step events
removed. -/
theorem c5_amended_buckets_are_retained_minus_leading_nonsteps
    (startTime : ℤ) (steps : List TestStep)
    (navigationEvents : List NavigationAnnotation)
    (annotationsEnqueue annotationsEnd annotationsStart : List Annotation)
    (summaries : List RequestSummary) :
    (useGetTestSections startTime steps navigationEvents annotationsEnqueue
        annotationsEnd annotationsStart summaries).concat.Perm
      ((sortedEventsOf startTime steps navigationEvents annotationsEnqueue
          annotationsEnd annotationsStart summaries).dropWhile
        fun e => !e.isStep) :=
  useGetTestSections_concat_perm startTime steps navigationEvents
    annotationsEnqueue annotationsEnd annotationsStart summaries

/-! ## Claim C6 -/

/-- C6: a non-step event processed while the current bucket is still empty
(equivalently, one preceded only by non-step events, since the current
bucket is empty exactly until the first step is appended) leaves the
partition state untouched — it is silently dropped; a non-step event
processed while the current bucket is non-empty is appended to the pending
side-buffer. -/
theorem c6_nonstep_dropped_or_buffered :
    (∀ (p rest : List CompositeTestEvent) (e : CompositeTestEvent),
        (∀ x ∈ p, x.isStep = false) → e.isStep = false →
        (p ++ e :: rest).foldl processEvent initialState =
          (p ++ rest).foldl processEvent initialState) ∧
    (∀ (st : PartitionState) (e : CompositeTestEvent),
        e.isStep = false → currentList st ≠ [] →
        processEvent st e =
          { st with nonStepStack := st.nonStepStack ++ [e] }) ∧
    (∀ p : List CompositeTestEvent, (∀ x ∈ p, x.isStep = false) →
        currentList (p.foldl processEvent initialState) = []) ∧
    (∀ (p : List CompositeTestEvent) (se : StepEvent),
        CompositeTestEvent.step se ∈ p →
        currentList (p.foldl processEvent initialState) ≠ []) := by
  refine ⟨?_, ?_, ?_, ?_⟩
  · intro p rest e hp he
    rw [List.foldl_append, List.foldl_append, foldl_nonSteps_initial p hp,
      List.foldl_cons, processEvent_nonStep_empty initialState e he rfl]
  · intro st e he h
    cases e with
    | step se => simp [CompositeTestEvent.isStep] at he
    | network n =>
      have hl : (currentList st).length ≠ 0 := by simpa using h
      simp [processEvent, hl]
    | navigation n =>
      have hl : (currentList st).length ≠ 0 := by simpa using h
      simp [processEvent, hl]
  · intro p hp
    rw [foldl_nonSteps_initial p hp]
    rfl
  · intro p se hmem
    rcases List.append_of_mem hmem with ⟨p1, p2, rfl⟩
    rw [List.foldl_append, List.foldl_cons]
    exact currentList_foldl_ne p2 _ (currentList_processEvent_step _ se)

/-- A network event used to instantiate C6 concretely. -/
def c6Net1 : NetworkTimelineEvent :=
  { time := 0, event := { id := "n1", cause := "xhr", endTime := some 0 } }

/-- A second network event used to instantiate C6 concretely. -/
def c6Net2 : NetworkTimelineEvent :=
  { time := 1, event := { id := "n2", cause := "fetch", endTime := some 1 } }

/-- A partition state whose current (beforeEach) bucket is non-empty. -/
def c6State : PartitionState :=
  { beforeEach := [CompositeTestEvent.network c6Net1], testBody := [],
    afterEach := [], currentStack := .beforeEach, nonStepStack := [] }

/-- Witness for C6: with a leading non-step event the fold ignores a second
non-step event entirely, and with a non-empty current bucket a non-step
event goes to the pending side-buffer. -/
theorem c6_witness :
    ([CompositeTestEvent.network c6Net1] ++
        CompositeTestEvent.network c6Net2 :: []).foldl processEvent initialState =
      ([CompositeTestEvent.network c6Net1] ++ []).foldl processEvent initialState ∧
    processEvent c6State (CompositeTestEvent.network c6Net2) =
      { c6State with
          nonStepStack := c6State.nonStepStack ++ [CompositeTestEvent.network c6Net2] } := by
  constructor
  · exact c6_nonstep_dropped_or_buffered.1 [CompositeTestEvent.network c6Net1] []
      (CompositeTestEvent.network c6Net2) (by decide) rfl
  · exact c6_nonstep_dropped_or_buffered.2.1 c6State
      (CompositeTestEvent.network c6Net2) rfl (by decide)

/-! ## Claim C3 -/

/-- C3: an `"assert"` step with an error collapses to the single instant
`provisional end - 1` (start = end, start annotation := end annotation,
duration forced to `1`); an `"assert"` step without an error collapses to
the single instant of its resolved start (end = start, end annotation :=
start annotation, duration forced to `1`). -/
theorem c3_assert_steps_collapse (startTime : ℤ)
    (annotationsEnd annotationsEnqueue annotationsStart : List Annotation)
    (i : ℕ) (s : TestStep) (hname : s.name = "assert") :
    (s.error = true →
      (stepEventOf startTime annotationsEnd annotationsEnqueue annotationsStart
            i s).event.absoluteStartTime =
          (stepEventOf startTime annotationsEnd annotationsEnqueue annotationsStart
            i s).event.absoluteEndTime ∧
        (stepEventOf startTime annotationsEnd annotationsEnqueue annotationsStart
            i s).event.absoluteEndTime =
          provisionalEndTime startTime annotationsEnd annotationsStart s - 1 ∧
        (stepEventOf startTime annotationsEnd annotationsEnqueue annotationsStart
            i s).event.annotations.start =
          (stepEventOf startTime annotationsEnd annotationsEnqueue annotationsStart
            i s).event.annotations.«end» ∧
        (stepEventOf startTime annotationsEnd annotationsEnqueue annotationsStart
            i s).event.duration = 1) ∧
    (s.error = false →
      (stepEventOf startTime annotationsEnd annotationsEnqueue annotationsStart
            i s).event.absoluteEndTime =
          (stepEventOf startTime annotationsEnd annotationsEnqueue annotationsStart
            i s).event.absoluteStartTime ∧
        (stepEventOf startTime annotationsEnd annotationsEnqueue annotationsStart
            i s).event.absoluteStartTime =
          resolvedStartTime startTime annotationsStart s ∧
        (stepEventOf startTime annotationsEnd annotationsEnqueue annotationsStart
            i s).event.annotations.«end» =
          (stepEventOf startTime annotationsEnd annotationsEnqueue annotationsStart
            i s).event.annotations.start ∧
        (stepEventOf startTime annotationsEnd annotationsEnqueue annotationsStart
            i s).event.duration = 1) := by
  constructor
  · intro herr
    simp [stepEventOf, hname, herr]
  · intro herr
    simp [stepEventOf, hname, herr]

/-- A failed assert step, instantiating C3. -/
def c3StepErr : TestStep :=
  { id := "a1", name := "assert", relativeStartTime := 5, duration := some 3,
    error := true, hook := none }

/-- A successful assert step, instantiating C3. -/
def c3StepOk : TestStep :=
  { id := "a2", name := "assert", relativeStartTime := 5, duration := some 3,
    error := false, hook := none }

/-- Witness for C3 at concrete failed and successful assert steps. -/
theorem c3_witness :
    ((stepEventOf 0 [] [] [] 0 c3StepErr).event.absoluteStartTime =
        (stepEventOf 0 [] [] [] 0 c3StepErr).event.absoluteEndTime ∧
      (stepEventOf 0 [] [] [] 0 c3StepErr).event.absoluteEndTime =
        provisionalEndTime 0 [] [] c3StepErr - 1 ∧
      (stepEventOf 0 [] [] [] 0 c3StepErr).event.annotations.start =
        (stepEventOf 0 [] [] [] 0 c3StepErr).event.annotations.«end» ∧
      (stepEventOf 0 [] [] [] 0 c3StepErr).event.duration = 1) ∧
    ((stepEventOf 0 [] [] [] 0 c3StepOk).event.absoluteEndTime =
        (stepEventOf 0 [] [] [] 0 c3StepOk).event.absoluteStartTime ∧
      (stepEventOf 0 [] [] [] 0 c3StepOk).event.absoluteStartTime =
        resolvedStartTime 0 [] c3StepOk ∧
      (stepEventOf 0 [] [] [] 0 c3StepOk).event.annotations.«end» =
        (stepEventOf 0 [] [] [] 0 c3StepOk).event.annotations.start ∧
      (stepEventOf 0 [] [] [] 0 c3StepOk).event.duration = 1) :=
  ⟨(c3_assert_steps_collapse 0 [] [] [] 0 c3StepErr rfl).1 rfl,
    (c3_assert_steps_collapse 0 [] [] [] 0 c3StepOk rfl).2 rfl⟩

/-! ## Claim C9 -/

/-- The `hook:"beforeEach"` step of the spec's Scenario B. -/
def c9Step1 : TestStep :=
  { id := "s1", name := "cmd", relativeStartTime := 0, duration := none,
    error := false, hook := some "beforeEach" }

/-- The unhooked step of the spec's Scenario B. -/
def c9Step2 : TestStep :=
  { id := "s2", name := "cmd", relativeStartTime := 10, duration := none,
    error := false, hook := none }

/-- C9: in the comparator, among step pairs with differing hooks a
`beforeEach` step sorts strictly before the other and an `afterEach` step
sorts strictly after; and on Scenario B (beforeEach step at relative time
0, unhooked step at relative time 10, start time 0, no annotations) the
first step is routed to the `beforeEach` bucket and the second to the
`testBody` bucket. -/
theorem c9_hook_tiebreak_and_scenario_b :
    (∀ sa sb : StepEvent, sa.event.hook ≠ sb.event.hook →
      (sa.event.hook = some "beforeEach" →
        sortComparator (.step sa) (.step sb) < 0) ∧
      (sa.event.hook = some "afterEach" →
        sortComparator (.step sa) (.step sb) > 0)) ∧
    ((useGetTestSections 0 [c9Step1, c9Step2] [] [] [] [] []).beforeEach.map
        CompositeTestEvent.stepId = [some "s1"] ∧
      (useGetTestSections 0 [c9Step1, c9Step2] [] [] [] [] []).testBody.map
        CompositeTestEvent.stepId = [some "s2"] ∧
      (useGetTestSections 0 [c9Step1, c9Step2] [] [] [] [] []).afterEach = []) := by
  constructor
  · intro sa sb hne
    constructor
    · intro h1
      have h2 : sb.event.hook ≠ some "beforeEach" := fun hh => hne (h1.trans hh.symm)
      show (if sa.event.hook ≠ sb.event.hook then _ else _) < 0
      rw [if_pos hne, if_pos ⟨h1, h2⟩]
      decide
    · intro h1
      have h2 : sb.event.hook ≠ some "afterEach" := fun hh => hne (h1.trans hh.symm)
      have h3 : ¬(sa.event.hook = some "beforeEach" ∧
          sb.event.hook ≠ some "beforeEach") := by
        rintro ⟨hb, -⟩
        rw [h1] at hb
        exact absurd (Option.some.inj hb) (by decide)
      show (if sa.event.hook ≠ sb.event.hook then _ else _) > 0
      rw [if_pos hne, if_neg h3, if_pos ⟨h1, h2⟩]
      decide
  · refine ⟨?_, ?_, ?_⟩ <;> decide

/-- The empty annotations record, for concrete step events. -/
def noAnnotations : StepAnnotations :=
  { «end» := none, enqueue := none, start := none }

/-- A `beforeEach`-hooked step event, instantiating C9's comparator facts. -/
def c9EvBefore : StepEvent :=
  { time := 7,
    event :=
      { toTestStep := c9Step1, absoluteStartTime := 7, absoluteEndTime := 7,
        duration := 1, index := 0, annotations := noAnnotations } }

/-- An `afterEach`-hooked raw step, instantiating C9's comparator facts. -/
def c9Step3 : TestStep :=
  { id := "s3", name := "cmd", relativeStartTime := 1, duration := none,
    error := false, hook := some "afterEach" }

/-- An `afterEach`-hooked step event, instantiating C9's comparator facts. -/
def c9EvAfter : StepEvent :=
  { time := 1,
    event :=
      { toTestStep := c9Step3, absoluteStartTime := 1, absoluteEndTime := 1,
        duration := 1, index := 1, annotations := noAnnotations } }

/-- An unhooked step event, instantiating C9's comparator facts. -/
def c9EvPlain : StepEvent :=
  { time := 3,
    event :=
      { toTestStep := c9Step2, absoluteStartTime := 3, absoluteEndTime := 3,
        duration := 1, index := 2, annotations := noAnnotations } }

/-- Witness for C9: a later `beforeEach` step still compares before an
earlier unhooked step, and an earlier `afterEach` step still compares after
a later unhooked step. -/
theorem c9_witness :
    sortComparator (.step c9EvBefore) (.step c9EvPlain) < 0 ∧
    sortComparator (.step c9EvAfter) (.step c9EvPlain) > 0 :=
  ⟨(c9_hook_tiebreak_and_scenario_b.1 c9EvBefore c9EvPlain (by decide)).1 rfl,
    (c9_hook_tiebreak_and_scenario_b.1 c9EvAfter c9EvPlain (by decide)).2 rfl⟩

/-! ## Claim C8 -/

/-- C8: after the loop, a non-empty pending side-buffer is appended, in
order, to the first non-empty bucket in preference order `afterEach`,
`testBody`, `beforeEach`. -/
theorem c8_trailing_flush_preference (st : PartitionState)
    (hp : st.nonStepStack ≠ []) :
    (st.afterEach ≠ [] →
      finalizeSections st =
        { st with afterEach := st.afterEach ++ st.nonStepStack }) ∧
    (st.afterEach = [] → st.testBody ≠ [] →
      finalizeSections st =
        { st with testBody := st.testBody ++ st.nonStepStack }) ∧
    (st.afterEach = [] → st.testBody = [] → st.beforeEach ≠ [] →
      finalizeSections st =
        { st with beforeEach := st.beforeEach ++ st.nonStepStack }) := by
  have hp' : st.nonStepStack.length ≠ 0 := by simpa using hp
  refine ⟨?_, ?_, ?_⟩
  · intro ha
    have ha' : st.afterEach.length ≠ 0 := by simpa using ha
    simp [finalizeSections, hp', ha']
  · intro ha ht
    have ha' : ¬st.afterEach.length ≠ 0 := by simp [ha]
    have ht' : st.testBody.length ≠ 0 := by simpa using ht
    simp [finalizeSections, hp', ha', ht', ha]
  · intro ha ht hb
    have ha' : ¬st.afterEach.length ≠ 0 := by simp [ha]
    have ht' : ¬st.testBody.length ≠ 0 := by simp [ht]
    have hb' : st.beforeEach.length ≠ 0 := by simpa using hb
    simp [finalizeSections, hp', ha', ht', hb', ha, ht]

/-- Scenario D's step: `beforeEach`, window `[0, 2)`. -/
def c8Step : TestStep :=
  { id := "s1", name := "cmd", relativeStartTime := 0, duration := some 3,
    error := false, hook := some "beforeEach" }

/-- Scenario D's trailing in-window network summary. -/
def c8Net : RequestSummary := { id := "n1", cause := "fetch", endTime := some 1 }

/-- Witness for C8, on Scenario D's real pipeline state: only the
`beforeEach` bucket is populated and the trailing network event is pending,
so the trailing flush appends it to `beforeEach` (it is not dropped). -/
theorem c8_witness :
    (((sortedEventsOf 0 [c8Step] [] [] [] [] [c8Net]).foldl processEvent
          initialState).nonStepStack ≠ [] ∧
      ((sortedEventsOf 0 [c8Step] [] [] [] [] [c8Net]).foldl processEvent
          initialState).afterEach = [] ∧
      ((sortedEventsOf 0 [c8Step] [] [] [] [] [c8Net]).foldl processEvent
          initialState).testBody = []) ∧
    finalizeSections
        ((sortedEventsOf 0 [c8Step] [] [] [] [] [c8Net]).foldl processEvent
          initialState) =
      { (sortedEventsOf 0 [c8Step] [] [] [] [] [c8Net]).foldl processEvent
          initialState with
        beforeEach :=
          ((sortedEventsOf 0 [c8Step] [] [] [] [] [c8Net]).foldl processEvent
              initialState).beforeEach ++
            ((sortedEventsOf 0 [c8Step] [] [] [] [] [c8Net]).foldl processEvent
              initialState).nonStepStack } := by
  refine ⟨⟨by decide, by decide, by decide⟩, ?_⟩
  exact (c8_trailing_flush_preference _ (by decide)).2.2 (by decide) (by decide)
    (by decide)

/-! ## Claim C7 -/

/-- Any event in a bucket comes from the merged (pre-sort) event list. -/
lemma mem_concat_mem_allEvents (startTime : ℤ) (steps : List TestStep)
    (navigationEvents : List NavigationAnnotation)
    (annotationsEnqueue annotationsEnd annotationsStart : List Annotation)
    (summaries : List RequestSummary) (e : CompositeTestEvent)
    (h : e ∈ (useGetTestSections startTime steps navigationEvents
        annotationsEnqueue annotationsEnd annotationsStart summaries).concat) :
    e ∈ allEventsOf startTime steps navigationEvents annotationsEnqueue
      annotationsEnd annotationsStart summaries := by
  have hperm := useGetTestSections_concat_perm startTime steps navigationEvents
    annotationsEnqueue annotationsEnd annotationsStart summaries
  have h1 := hperm.mem_iff.mp h
  have h2 : e ∈ sortedEventsOf startTime steps navigationEvents
      annotationsEnqueue annotationsEnd annotationsStart summaries :=
    (List.dropWhile_sublist _).subset h1
  exact (List.perm_insertionSort sortLe _).subset h2

/-- C7: a network summary reaches a bucket only if its cause is `"xhr"` or
`"fetch"`, its end time is defined (and is the event's sort time), and that
end time is in-window; summaries with no end time or an out-of-window end
time never appear. -/
theorem c7_network_events_filtered (startTime : ℤ) (steps : List TestStep)
    (navigationEvents : List NavigationAnnotation)
    (annotationsEnqueue annotationsEnd annotationsStart : List Annotation)
    (summaries : List RequestSummary) (n : NetworkTimelineEvent)
    (h : CompositeTestEvent.network n ∈
      (useGetTestSections startTime steps navigationEvents annotationsEnqueue
          annotationsEnd annotationsStart summaries).concat) :
    (n.event.cause = "xhr" ∨ n.event.cause = "fetch") ∧
      n.event.endTime = some n.time ∧
      isDuringSteps
        (timesOf (stepsByTime startTime annotationsEnd annotationsEnqueue
          annotationsStart steps)) n.time = true := by
  have hall := mem_concat_mem_allEvents startTime steps navigationEvents
    annotationsEnqueue annotationsEnd annotationsStart summaries _ h
  unfold allEventsOf at hall
  simp only [List.mem_append, List.mem_map] at hall
  rcases hall with (h1 | h1) | h1
  rotate_left
  · rcases h1 with ⟨s', hs', heq⟩
    exact absurd heq (by simp)
  · rcases h1 with ⟨v', hv', heq⟩
    exact absurd heq (by simp)
  · rcases h1 with ⟨n', hn', heq⟩
    cases heq
    unfold networkDataByTime at hn'
    rcases List.mem_map.mp hn' with ⟨r, hr, hrn⟩
    rcases List.mem_filter.mp hr with ⟨-, hp⟩
    rw [Bool.and_eq_true] at hp
    rcases hp with ⟨hcause, hwin⟩
    rw [Bool.or_eq_true, beq_iff_eq, beq_iff_eq] at hcause
    cases hre : r.endTime with
    | none =>
      rw [hre] at hwin
      simp at hwin
    | some t =>
      rw [hre] at hwin
      subst hrn
      refine ⟨hcause, ?_, ?_⟩
      · show r.endTime = some (r.endTime.getD 0)
        rw [hre]
        rfl
      · show isDuringSteps _ (r.endTime.getD 0) = true
        rw [hre]
        exact hwin

/-- Witness for C7, applying it to Scenario D's pipeline where the network
event does land in a bucket. -/
theorem c7_witness :
    (c8Net.cause = "xhr" ∨ c8Net.cause = "fetch") ∧
      c8Net.endTime = some (1 : ℤ) ∧
      isDuringSteps (timesOf (stepsByTime 0 [] [] [] [c8Step])) 1 = true := by
  have h := c7_network_events_filtered 0 [c8Step] [] [] [] [] [c8Net]
    { time := 1, event := c8Net } (by decide)
  simpa using h

/-! ## Claim C4: the step-time window -/

lemma le_jsMax_left (a b : ℤ) : a ≤ jsMax a b := by
  unfold jsMax
  split <;> omega

lemma le_jsMax_right (a b : ℤ) : b ≤ jsMax a b := by
  unfold jsMax
  split <;> omega

lemma jsMax_cases (a b : ℤ) : jsMax a b = a ∨ jsMax a b = b := by
  unfold jsMax
  split <;> simp

lemma leInfinity_jsMin_self (m : Option ℤ) (x : ℤ) :
    leInfinity (jsMin m x) x = true := by
  cases m with
  | none => simp [jsMin, leInfinity]
  | some m =>
    simp only [jsMin, leInfinity, decide_eq_true_eq]
    split <;> omega

lemma leInfinity_jsMin_of (m : Option ℤ) (x t : ℤ)
    (h : leInfinity m t = true) : leInfinity (jsMin m x) t = true := by
  cases m with
  | none => simp [leInfinity] at h
  | some m =>
    simp only [leInfinity, decide_eq_true_eq] at h
    simp only [jsMin, leInfinity, decide_eq_true_eq]
    split <;> omega

lemma jsMin_ne_none (m : Option ℤ) (x : ℤ) : jsMin m x ≠ none := by
  cases m <;> simp [jsMin]

lemma foldl_timesStep_min_of (l : List StepEvent) (acc : StepTimes) (t : ℤ)
    (h : leInfinity acc.min t = true) :
    leInfinity (l.foldl timesStep acc).min t = true := by
  induction l generalizing acc with
  | nil => exact h
  | cons s l ih => exact ih _ (leInfinity_jsMin_of _ _ _ h)

lemma foldl_timesStep_min_mem (l : List StepEvent) (acc : StepTimes) :
    ∀ s ∈ l, leInfinity (l.foldl timesStep acc).min
      s.event.absoluteStartTime = true := by
  induction l generalizing acc with
  | nil => simp
  | cons x l ih =>
    intro s hs
    rcases List.mem_cons.mp hs with rfl | hs
    · exact foldl_timesStep_min_of l _ _ (leInfinity_jsMin_self _ _)
    · exact ih _ s hs

lemma foldl_timesStep_min_attained (l : List StepEvent) (acc : StepTimes) :
    (l.foldl timesStep acc).min = acc.min ∨
      ∃ s ∈ l, (l.foldl timesStep acc).min = some s.event.absoluteStartTime := by
  induction l generalizing acc with
  | nil => exact Or.inl rfl
  | cons x l ih =>
    rw [List.foldl_cons]
    rcases ih (timesStep acc x) with h | ⟨s, hs, h⟩
    · rw [h]
      simp only [timesStep]
      cases hm : acc.min with
      | none =>
        refine Or.inr ⟨x, by simp, ?_⟩
        simp [jsMin]
      | some m =>
        simp only [jsMin]
        split
        · exact Or.inl rfl
        · exact Or.inr ⟨x, by simp, rfl⟩
    · exact Or.inr ⟨s, by simp [hs], h⟩

lemma foldl_timesStep_min_none (l : List StepEvent) (acc : StepTimes)
    (h : (l.foldl timesStep acc).min = none) : acc.min = none := by
  induction l generalizing acc with
  | nil => exact h
  | cons x l ih =>
    have := ih _ h
    exact absurd this (jsMin_ne_none _ _)

lemma foldl_timesStep_max_mono (l : List StepEvent) (acc : StepTimes) :
    acc.max ≤ (l.foldl timesStep acc).max := by
  induction l generalizing acc with
  | nil => exact le_refl _
  | cons x l ih =>
    exact le_trans (le_jsMax_left _ _) (ih (timesStep acc x))

lemma foldl_timesStep_max_mem (l : List StepEvent) (acc : StepTimes) :
    ∀ s ∈ l, s.event.absoluteEndTime ≤ (l.foldl timesStep acc).max := by
  induction l generalizing acc with
  | nil => simp
  | cons x l ih =>
    intro s hs
    rcases List.mem_cons.mp hs with rfl | hs
    · exact le_trans (le_jsMax_right _ _) (foldl_timesStep_max_mono l _)
    · exact ih _ s hs

lemma foldl_timesStep_max_attained (l : List StepEvent) (acc : StepTimes) :
    (l.foldl timesStep acc).max = acc.max ∨
      ∃ s ∈ l, (l.foldl timesStep acc).max = s.event.absoluteEndTime := by
  induction l generalizing acc with
  | nil => exact Or.inl rfl
  | cons x l ih =>
    rcases ih (timesStep acc x) with h | ⟨s, hs, h⟩
    · rw [List.foldl_cons, h]
      rcases jsMax_cases acc.max x.event.absoluteEndTime with h' | h'
      · exact Or.inl h'
      · exact Or.inr ⟨x, by simp, h'⟩
    · exact Or.inr ⟨s, by simp [hs], h⟩

/-- The value the `"assert"` special case leaves in the local
`absoluteEndTime` binding right before the minus-one normalization — the
"provisional end" of the stored event. -/
def mutatedProvisionalEnd (startTime : ℤ)
    (annotationsEnd annotationsStart : List Annotation) (s : TestStep) : ℤ :=
  if s.name = "assert" then
    if s.error then provisionalEndTime startTime annotationsEnd annotationsStart s
    else resolvedStartTime startTime annotationsStart s + 1
  else provisionalEndTime startTime annotationsEnd annotationsStart s

lemma stepEventOf_absoluteEndTime (startTime : ℤ)
    (annotationsEnd annotationsEnqueue annotationsStart : List Annotation)
    (i : ℕ) (s : TestStep) :
    (stepEventOf startTime annotationsEnd annotationsEnqueue annotationsStart
        i s).event.absoluteEndTime =
      mutatedProvisionalEnd startTime annotationsEnd annotationsStart s - 1 := by
  unfold stepEventOf mutatedProvisionalEnd
  split <;> [skip; rfl]
  split <;> rfl

/-- Modelled from the spec: "`windowMax` = maximum provisional
`absoluteEndTime` across all steps (or `0` if none)" — the window maximum
the claim asserts, without the minus-one normalization the code applies. -/
def specWindowMax (startTime : ℤ)
    (annotationsEnd annotationsStart : List Annotation)
    (steps : List TestStep) : ℤ :=
  steps.foldl
    (fun acc s =>
      jsMax acc (mutatedProvisionalEnd startTime annotationsEnd annotationsStart s))
    0

/-- The single step of the C4 counterexample: start `0`, duration `5`,
provisional end `5`, stored end `4`. -/
def c4Step : TestStep :=
  { id := "s1", name := "cmd", relativeStartTime := 0, duration := some 5,
    error := false, hook := none }

/-- C4 counterexample: the claim's `windowMax` (the maximum provisional end,
`5`) differs from the code's (`4`, the maximum stored end, i.e. provisional
minus one); time `4` satisfies `windowMin ≤ 4 < 5` yet is not in-window. -/
theorem c4_counterexample_windowMax_off_by_one :
    specWindowMax 0 [] [] [c4Step] = 5 ∧
      (timesOf (stepsByTime 0 [] [] [] [c4Step])).max = 4 ∧
      leInfinity (timesOf (stepsByTime 0 [] [] [] [c4Step])).min 4 = true ∧
      isDuringSteps (timesOf (stepsByTime 0 [] [] [] [c4Step])) 4 = false := by
  decide

/-- C4 amended: `windowMin` is the minimum stored `absoluteStartTime`
(`Infinity`/`none` exactly when there are no steps), `windowMax` is the
maximum stored `absoluteEndTime` — the provisional end time MINUS ONE —
floored at the seed `0`, a time is in-window iff `windowMin ≤ t <
windowMax`, and with zero steps the window excludes everything, so all
three buckets are empty regardless of network and navigation input. -/
theorem c4_amended_window_characterization (startTime : ℤ)
    (steps : List TestStep) (navigationEvents : List NavigationAnnotation)
    (annotationsEnqueue annotationsEnd annotationsStart : List Annotation)
    (summaries : List RequestSummary) :
    (∀ s ∈ stepsByTime startTime annotationsEnd annotationsEnqueue
        annotationsStart steps,
      leInfinity (timesOf (stepsByTime startTime annotationsEnd
          annotationsEnqueue annotationsStart steps)).min
        s.event.absoluteStartTime = true) ∧
    ((timesOf (stepsByTime startTime annotationsEnd annotationsEnqueue
        annotationsStart steps)).min = none ∨
      ∃ s ∈ stepsByTime startTime annotationsEnd annotationsEnqueue
          annotationsStart steps,
        (timesOf (stepsByTime startTime annotationsEnd annotationsEnqueue
            annotationsStart steps)).min = some s.event.absoluteStartTime) ∧
    (∀ s ∈ stepsByTime startTime annotationsEnd annotationsEnqueue
        annotationsStart steps,
      s.event.absoluteEndTime ≤
        (timesOf (stepsByTime startTime annotationsEnd annotationsEnqueue
          annotationsStart steps)).max) ∧
    ((timesOf (stepsByTime startTime annotationsEnd annotationsEnqueue
        annotationsStart steps)).max = 0 ∨
      ∃ s ∈ stepsByTime startTime annotationsEnd annotationsEnqueue
          annotationsStart steps,
        (timesOf (stepsByTime startTime annotationsEnd annotationsEnqueue
            annotationsStart steps)).max = s.event.absoluteEndTime) ∧
    (∀ (i : ℕ) (s : TestStep),
      (stepEventOf startTime annotationsEnd annotationsEnqueue annotationsStart
          i s).event.absoluteEndTime =
        mutatedProvisionalEnd startTime annotationsEnd annotationsStart s - 1) ∧
    (∀ t : ℤ,
      isDuringSteps (timesOf (stepsByTime startTime annotationsEnd
          annotationsEnqueue annotationsStart steps)) t =
        (leInfinity (timesOf (stepsByTime startTime annotationsEnd
            annotationsEnqueue annotationsStart steps)).min t &&
          decide (t < (timesOf (stepsByTime startTime annotationsEnd
            annotationsEnqueue annotationsStart steps)).max))) ∧
    (steps = [] →
      (timesOf (stepsByTime startTime annotationsEnd annotationsEnqueue
          annotationsStart steps)).min = none ∧
      (timesOf (stepsByTime startTime annotationsEnd annotationsEnqueue
          annotationsStart steps)).max = 0 ∧
      useGetTestSections startTime steps navigationEvents annotationsEnqueue
          annotationsEnd annotationsStart summaries =
        { beforeEach := [], testBody := [], afterEach := [] }) := by
  refine ⟨?_, ?_, ?_, ?_, ?_, ?_, ?_⟩
  · exact foldl_timesStep_min_mem _ _
  · rcases foldl_timesStep_min_attained
        (stepsByTime startTime annotationsEnd annotationsEnqueue
          annotationsStart steps) { min := none, max := 0 } with h | h
    · exact Or.inl h
    · exact Or.inr h
  · exact foldl_timesStep_max_mem _ _
  · rcases foldl_timesStep_max_attained
        (stepsByTime startTime annotationsEnd annotationsEnqueue
          annotationsStart steps) { min := none, max := 0 } with h | h
    · exact Or.inl h
    · exact Or.inr h
  · exact fun i s => stepEventOf_absoluteEndTime startTime annotationsEnd
      annotationsEnqueue annotationsStart i s
  · intro t
    rfl
  · intro hsteps
    subst hsteps
    refine ⟨rfl, rfl, ?_⟩
    have hnet : networkDataByTime (timesOf (stepsByTime startTime
        annotationsEnd annotationsEnqueue annotationsStart [])) summaries = [] := by
      unfold networkDataByTime
      rw [List.filter_eq_nil_iff.mpr]
      · rfl
      · intro n _
        cases hn : n.endTime <;>
          simp [stepsByTime, mapWithIndex, timesOf, isDuringSteps, leInfinity, hn]
    have hnav : navigationEventsByTime (timesOf (stepsByTime startTime
        annotationsEnd annotationsEnqueue annotationsStart []))
        navigationEvents = [] := by
      unfold navigationEventsByTime
      rw [List.filter_eq_nil_iff.mpr]
      · rfl
      · intro n _
        simp [stepsByTime, mapWithIndex, timesOf, isDuringSteps, leInfinity]
    simp only [useGetTestSections, sortedEventsOf, allEventsOf]
    rw [hnet, hnav]
    rfl

/-- A navigation annotation for the C4 witness's zero-step run. -/
def c4Nav : NavigationAnnotation := { message := { url := "about:blank" }, time := 3 }

/-- A network summary for the C4 witness's zero-step run. -/
def c4Net : RequestSummary := { id := "n9", cause := "xhr", endTime := some 3 }

/-- Witness for C4: the window bounds hold at a concrete one-step input, and
with zero steps the buckets are empty despite network/navigation input. -/
theorem c4_witness :
    leInfinity (timesOf (stepsByTime 0 [] [] [] [c4Step])).min
        ((stepEventOf 0 [] [] [] 0 c4Step).event.absoluteStartTime) = true ∧
    useGetTestSections 0 [] [c4Nav] [] [] [] [c4Net] =
      { beforeEach := [], testBody := [], afterEach := [] } := by
  constructor
  · exact (c4_amended_window_characterization 0 [c4Step] [] [] [] [] []).1
      (stepEventOf 0 [] [] [] 0 c4Step) (by decide)
  · exact ((c4_amended_window_characterization 0 [] [c4Nav] [] [] []
      [c4Net]).2.2.2.2.2.2 rfl).2.2

/-! ## Claim C2: ordering inside the buckets -/

/-- The `beforeEach` step of the C2 counterexample (start `0`). -/
def c2Step1 : TestStep :=
  { id := "s1", name := "cmd", relativeStartTime := 0, duration := some 1,
    error := false, hook := some "beforeEach" }

/-- The `afterEach` step of the C2 counterexample (start `2`). -/
def c2Step2 : TestStep :=
  { id := "s2", name := "cmd", relativeStartTime := 2, duration := some 1,
    error := false, hook := some "afterEach" }

/-- The in-window network summary of the C2 counterexample (end `1`). -/
def c2Net : RequestSummary := { id := "n1", cause := "xhr", endTime := some 1 }

/-- C2 counterexample: with a `beforeEach` step at time 0, an `afterEach`
step at time 2 and a network event at time 1, the network event is pending
when the loop switches to the `afterEach` bucket, and the switch appends it
AFTER the step: the `afterEach` bucket is `[step@2, network@1]`, a
step/non-step pair in strictly decreasing time order, which the claim's
sole (step-step) exception does not cover. -/
theorem c2_counterexample_nonstep_after_later_step :
    (useGetTestSections 0 [c2Step1, c2Step2] [] [] [] [] [c2Net]).afterEach.map
        CompositeTestEvent.time = [2, 1] ∧
    (useGetTestSections 0 [c2Step1, c2Step2] [] [] [] [] [c2Net]).afterEach.map
        CompositeTestEvent.isStep = [true, false] ∧
    ¬ List.Pairwise (fun a b => a.isStep ≠ b.isStep → a.time ≤ b.time)
        (useGetTestSections 0 [c2Step1, c2Step2] [] [] [] [] [c2Net]).afterEach := by
  refine ⟨by decide, by decide, ?_⟩
  decide

/-- Pure time order on composite events — what the comparator degenerates
to when the hook tie-break never fires. -/
def timeLe (a b : CompositeTestEvent) : Prop := a.time ≤ b.time

instance : DecidableRel timeLe := fun a b =>
  inferInstanceAs (Decidable (a.time ≤ b.time))

instance : IsTotal CompositeTestEvent timeLe :=
  ⟨fun a b => le_total a.time b.time⟩

instance : IsTrans CompositeTestEvent timeLe :=
  ⟨fun _ _ _ hab hbc => le_trans hab hbc⟩

lemma orderedInsert_congr {α : Type} (r r' : α → α → Prop) [DecidableRel r]
    [DecidableRel r'] (x : α) :
    ∀ L : List α, (∀ b ∈ L, (r x b ↔ r' x b)) →
      List.orderedInsert r x L = List.orderedInsert r' x L := by
  intro L
  induction L with
  | nil => intro _; rfl
  | cons b L ih =>
    intro hb
    simp only [List.orderedInsert]
    by_cases h : r x b
    · rw [if_pos h, if_pos ((hb b (by simp)).mp h)]
    · rw [if_neg h, if_neg fun h' => h ((hb b (by simp)).mpr h'),
        ih fun c hc => hb c (by simp [hc])]

lemma insertionSort_congr {α : Type} (r r' : α → α → Prop) [DecidableRel r]
    [DecidableRel r'] :
    ∀ l : List α, (∀ a ∈ l, ∀ b ∈ l, (r a b ↔ r' a b)) →
      List.insertionSort r l = List.insertionSort r' l := by
  intro l
  induction l with
  | nil => intro _; rfl
  | cons x l ih =>
    intro h
    simp only [List.insertionSort]
    rw [ih fun a ha b hb => h a (by simp [ha]) b (by simp [hb])]
    apply orderedInsert_congr
    intro b hb
    have hbmem : b ∈ l := (List.perm_insertionSort r' l).subset hb
    exact h x (by simp) b (by simp [hbmem])

lemma mem_mapWithIndex {α β : Type} (f : ℕ → α → β) :
    ∀ (i : ℕ) (l : List α) (y : β), y ∈ mapWithIndex f i l →
      ∃ j x, x ∈ l ∧ y = f j x := by
  intro i l
  induction l generalizing i with
  | nil => intro y hy; simp [mapWithIndex] at hy
  | cons a l ih =>
    intro y hy
    rcases List.mem_cons.mp hy with rfl | hy
    · exact ⟨i, a, by simp, rfl⟩
    · rcases ih (i + 1) y hy with ⟨j, x, hx, rfl⟩
      exact ⟨j, x, by simp [hx], rfl⟩

lemma stepEventOf_toTestStep (startTime : ℤ)
    (annotationsEnd annotationsEnqueue annotationsStart : List Annotation)
    (i : ℕ) (s : TestStep) :
    (stepEventOf startTime annotationsEnd annotationsEnqueue annotationsStart
        i s).event.toTestStep = s := by
  unfold stepEventOf
  split
  · split <;> rfl
  · rfl

/-- If every raw step is unhooked, every step event of the merged list is
unhooked. -/
lemma allEvents_steps_unhooked (startTime : ℤ) (steps : List TestStep)
    (navigationEvents : List NavigationAnnotation)
    (annotationsEnqueue annotationsEnd annotationsStart : List Annotation)
    (summaries : List RequestSummary)
    (hsteps : ∀ s ∈ steps, s.hook = none) :
    ∀ se, CompositeTestEvent.step se ∈ allEventsOf startTime steps
        navigationEvents annotationsEnqueue annotationsEnd annotationsStart
        summaries → se.event.hook = none := by
  intro se h
  unfold allEventsOf at h
  simp only [List.mem_append, List.mem_map] at h
  rcases h with (h1 | h1) | h1
  · rcases h1 with ⟨n', _, heq⟩
    exact absurd heq (by simp)
  · rcases h1 with ⟨s', hs', heq⟩
    have hse : s' = se := by
      cases heq
      rfl
    subst hse
    rcases mem_mapWithIndex _ 0 steps s' hs' with ⟨j, x, hx, rfl⟩
    show (stepEventOf startTime annotationsEnd annotationsEnqueue
      annotationsStart j x).event.toTestStep.hook = none
    rw [stepEventOf_toTestStep]
    exact hsteps x hx
  · rcases h1 with ⟨v', _, heq⟩
    exact absurd heq (by simp)

/-- On events whose step variants are all unhooked, the comparator order is
pure time order. -/
lemma sortLe_iff_timeLe (a b : CompositeTestEvent)
    (ha : ∀ se, a = CompositeTestEvent.step se → se.event.hook = none)
    (hb : ∀ se, b = CompositeTestEvent.step se → se.event.hook = none) :
    (sortLe a b ↔ timeLe a b) := by
  cases a with
  | step sa =>
    cases b with
    | step sb =>
      have h1 := ha sa rfl
      have h2 := hb sb rfl
      simp [sortLe, sortComparator, h1, h2, sub_nonpos, timeLe]
    | network nb => simp [sortLe, sortComparator, sub_nonpos, timeLe]
    | navigation vb => simp [sortLe, sortComparator, sub_nonpos, timeLe]
  | network na =>
    cases b <;> simp [sortLe, sortComparator, sub_nonpos, timeLe]
  | navigation va =>
    cases b <;> simp [sortLe, sortComparator, sub_nonpos, timeLe]

/-- Steady state of the loop on an all-unhooked tail: with the current
stack on a non-empty `testBody` and an empty `afterEach`, the remaining
events are appended to `testBody` in order (pending buffer first), and the
other buckets never change. -/
lemma foldl_unhooked_testBody (L : List CompositeTestEvent) :
    ∀ st : PartitionState, st.currentStack = .testBody → st.testBody ≠ [] →
      st.afterEach = [] →
      (∀ se, CompositeTestEvent.step se ∈ L → se.event.hook = none) →
      (finalizeSections (L.foldl processEvent st)).testBody =
          st.testBody ++ st.nonStepStack ++ L ∧
        (finalizeSections (L.foldl processEvent st)).beforeEach =
          st.beforeEach ∧
        (finalizeSections (L.foldl processEvent st)).afterEach = [] := by
  induction L with
  | nil =>
    intro st hcur htb hae _
    by_cases hp : st.nonStepStack.length ≠ 0
    · have htb' : st.testBody.length ≠ 0 := by simpa using htb
      have hae' : ¬st.afterEach.length ≠ 0 := by simp [hae]
      simp [finalizeSections, hp, hae', htb', hae]
    · have hp' : st.nonStepStack = [] := by simpa using hp
      simp [finalizeSections, hp, hp', hae]
  | cons e L ih =>
    intro st hcur htb hae hL
    rw [List.foldl_cons]
    cases e with
    | step se =>
      have hh : se.event.hook = none := hL se (by simp)
      have key : processEvent st (.step se) =
          PartitionState.mk st.beforeEach
            (st.testBody ++ st.nonStepStack ++ [.step se]) st.afterEach
            .testBody [] := by
        simp [processEvent, stepTarget, hh, jsFalsyHook, hcur, flushNonStep,
          pushCurrent, List.append_assoc, List.append_nil]
      rw [key]
      have hres := ih (PartitionState.mk st.beforeEach
          (st.testBody ++ st.nonStepStack ++ [CompositeTestEvent.step se])
          st.afterEach .testBody []) rfl (by simp) hae
        (fun se' hm => hL se' (by simp [hm]))
      rcases hres with ⟨h1, h2, h3⟩
      refine ⟨?_, h2, h3⟩
      rw [h1]
      simp [List.append_assoc]
    | network ne =>
      have hlen : (currentList st).length ≠ 0 := by
        unfold currentList
        rw [hcur]
        simpa using htb
      have key : processEvent st (.network ne) =
          { st with nonStepStack := st.nonStepStack ++ [.network ne] } := by
        simp [processEvent, hlen]
      rw [key]
      have hres := ih
        { st with nonStepStack := st.nonStepStack ++ [CompositeTestEvent.network ne] }
        hcur htb hae (fun se' hm => hL se' (by simp [hm]))
      rcases hres with ⟨h1, h2, h3⟩
      refine ⟨?_, h2, h3⟩
      rw [h1]
      simp [List.append_assoc]
    | navigation ve =>
      have hlen : (currentList st).length ≠ 0 := by
        unfold currentList
        rw [hcur]
        simpa using htb
      have key : processEvent st (.navigation ve) =
          { st with nonStepStack := st.nonStepStack ++ [.navigation ve] } := by
        simp [processEvent, hlen]
      rw [key]
      have hres := ih
        { st with nonStepStack := st.nonStepStack ++ [CompositeTestEvent.navigation ve] }
        hcur htb hae (fun se' hm => hL se' (by simp [hm]))
      rcases hres with ⟨h1, h2, h3⟩
      refine ⟨?_, h2, h3⟩
      rw [h1]
      simp [List.append_assoc]

/-- C2 amended: when no step carries a hook classification the hook
tie-break never fires, and then every bucket — `beforeEach` and `afterEach`
are empty, and `testBody` carries everything — and their concatenation is
in non-decreasing order of resolved sort time.  (With differing-hook steps
present the guarantee fails beyond the claim's step-pair exception: as the
counterexample shows, the pending buffer flushed after a bucket switch can
place a non-step event directly after a later-time step.) -/
theorem c2_amended_time_order_when_unhooked (startTime : ℤ)
    (steps : List TestStep) (navigationEvents : List NavigationAnnotation)
    (annotationsEnqueue annotationsEnd annotationsStart : List Annotation)
    (summaries : List RequestSummary)
    (hsteps : ∀ s ∈ steps, s.hook = none) :
    (useGetTestSections startTime steps navigationEvents annotationsEnqueue
        annotationsEnd annotationsStart summaries).beforeEach = [] ∧
    (useGetTestSections startTime steps navigationEvents annotationsEnqueue
        annotationsEnd annotationsStart summaries).afterEach = [] ∧
    List.Pairwise (fun a b => a.time ≤ b.time)
      (useGetTestSections startTime steps navigationEvents annotationsEnqueue
        annotationsEnd annotationsStart summaries).testBody ∧
    List.Pairwise (fun a b => a.time ≤ b.time)
      (useGetTestSections startTime steps navigationEvents annotationsEnqueue
        annotationsEnd annotationsStart summaries).concat := by
  have hA := allEvents_steps_unhooked startTime steps navigationEvents
    annotationsEnqueue annotationsEnd annotationsStart summaries hsteps
  have hcongr : sortedEventsOf startTime steps navigationEvents
      annotationsEnqueue annotationsEnd annotationsStart summaries =
      List.insertionSort timeLe (allEventsOf startTime steps navigationEvents
        annotationsEnqueue annotationsEnd annotationsStart summaries) := by
    unfold sortedEventsOf
    exact insertionSort_congr sortLe timeLe _ fun a haA b hbA =>
      sortLe_iff_timeLe a b (fun se he => hA se (he ▸ haA))
        (fun se he => hA se (he ▸ hbA))
  have hsorted : List.Pairwise timeLe (sortedEventsOf startTime steps
      navigationEvents annotationsEnqueue annotationsEnd annotationsStart
      summaries) := by
    rw [hcongr]
    exact List.sorted_insertionSort timeLe _
  have hLsteps : ∀ se, CompositeTestEvent.step se ∈ sortedEventsOf startTime
      steps navigationEvents annotationsEnqueue annotationsEnd
      annotationsStart summaries → se.event.hook = none := fun se hm =>
    hA se ((List.perm_insertionSort sortLe _).subset hm)
  have hdSorted : List.Pairwise timeLe ((sortedEventsOf startTime steps
      navigationEvents annotationsEnqueue annotationsEnd annotationsStart
      summaries).dropWhile fun e => !e.isStep) :=
    List.Pairwise.sublist (List.dropWhile_sublist _) hsorted
  cases hd : (sortedEventsOf startTime steps navigationEvents
      annotationsEnqueue annotationsEnd annotationsStart summaries).dropWhile
      (fun e => !e.isStep) with
  | nil =>
    have hval : useGetTestSections startTime steps navigationEvents
        annotationsEnqueue annotationsEnd annotationsStart summaries =
        { beforeEach := [], testBody := [], afterEach := [] } := by
      simp only [useGetTestSections]
      conv in List.foldl processEvent initialState _ =>
        rw [show sortedEventsOf startTime steps navigationEvents
            annotationsEnqueue annotationsEnd annotationsStart summaries =
            (sortedEventsOf startTime steps navigationEvents annotationsEnqueue
              annotationsEnd annotationsStart summaries).takeWhile
                (fun e => !e.isStep) ++
              (sortedEventsOf startTime steps navigationEvents
                annotationsEnqueue annotationsEnd annotationsStart
                summaries).dropWhile (fun e => !e.isStep) from
          (List.takeWhile_append_dropWhile _ _).symm]
      rw [List.foldl_append,
        foldl_nonSteps_initial _
          (fun x hx => by simpa using List.mem_takeWhile_imp hx), hd]
      rfl
    rw [hval]
    exact ⟨rfl, rfl, List.Pairwise.nil, List.Pairwise.nil⟩
  | cons e d =>
    have he : e.isStep = true := by simpa using dropWhile_cons_head_false hd
    rw [hd] at hdSorted
    cases e with
    | step se =>
      have hmem : CompositeTestEvent.step se ∈ sortedEventsOf startTime steps
          navigationEvents annotationsEnqueue annotationsEnd annotationsStart
          summaries :=
        (List.dropWhile_sublist _).subset (hd ▸ List.mem_cons_self _ _)
      have hse : se.event.hook = none := hLsteps se hmem
      have key : processEvent initialState (.step se) =
          PartitionState.mk [] [.step se] [] .testBody [] := by
        simp [processEvent, stepTarget, hse, jsFalsyHook, initialState,
          flushNonStep, pushCurrent]
      have hres := foldl_unhooked_testBody d
        (PartitionState.mk [] [CompositeTestEvent.step se] [] .testBody [])
        rfl (by simp) rfl
        (fun se' hm => hLsteps se'
          ((List.dropWhile_sublist _).subset (hd ▸ List.mem_cons_of_mem _ hm)))
      rcases hres with ⟨h1, h2, h3⟩
      have hval : useGetTestSections startTime steps navigationEvents
          annotationsEnqueue annotationsEnd annotationsStart summaries =
          { beforeEach := [], testBody := CompositeTestEvent.step se :: d,
            afterEach := [] } := by
        simp only [useGetTestSections]
        conv in List.foldl processEvent initialState _ =>
          rw [show sortedEventsOf startTime steps navigationEvents
              annotationsEnqueue annotationsEnd annotationsStart summaries =
              (sortedEventsOf startTime steps navigationEvents
                annotationsEnqueue annotationsEnd annotationsStart
                summaries).takeWhile (fun e => !e.isStep) ++
                (sortedEventsOf startTime steps navigationEvents
                  annotationsEnqueue annotationsEnd annotationsStart
                  summaries).dropWhile (fun e => !e.isStep) from
            (List.takeWhile_append_dropWhile _ _).symm]
        rw [List.foldl_append,
          foldl_nonSteps_initial _
            (fun x hx => by simpa using List.mem_takeWhile_imp hx), hd,
          List.foldl_cons, key]
        simp only [toSections]
        rw [TestSections.mk.injEq]
        refine ⟨h2, ?_, h3⟩
        rw [h1]
        simp
      rw [hval]
      refine ⟨rfl, rfl, hdSorted, ?_⟩
      show List.Pairwise _ ([] ++ (CompositeTestEvent.step se :: d) ++ [])
      simpa using hdSorted
    | network ne => simp [CompositeTestEvent.isStep] at he
    | navigation ve => simp [CompositeTestEvent.isStep] at he

/-- An unhooked step of the C2 witness. -/
def c2wStep1 : TestStep :=
  { id := "s1", name := "cmd", relativeStartTime := 0, duration := some 2,
    error := false, hook := none }

/-- A later unhooked step of the C2 witness. -/
def c2wStep2 : TestStep :=
  { id := "s2", name := "cmd", relativeStartTime := 5, duration := some 1,
    error := false, hook := none }

/-- An in-window network summary of the C2 witness. -/
def c2wNet : RequestSummary := { id := "n1", cause := "fetch", endTime := some 1 }

/-- Witness for C2 (amended) at a concrete all-unhooked input with an
interleaved network event. -/
theorem c2_amended_witness :
    (useGetTestSections 0 [c2wStep1, c2wStep2] [] [] [] [] [c2wNet]).beforeEach
        = [] ∧
    (useGetTestSections 0 [c2wStep1, c2wStep2] [] [] [] [] [c2wNet]).afterEach
        = [] ∧
    List.Pairwise (fun a b => a.time ≤ b.time)
      (useGetTestSections 0 [c2wStep1, c2wStep2] [] [] [] [] [c2wNet]).testBody ∧
    List.Pairwise (fun a b => a.time ≤ b.time)
      (useGetTestSections 0 [c2wStep1, c2wStep2] [] [] [] [] [c2wNet]).concat :=
  c2_amended_time_order_when_unhooked 0 [c2wStep1, c2wStep2] [] [] [] [] [c2wNet]
    (by decide)

/-! ## Claim C10: the enqueue annotation stream is write-only

The enqueue annotations are looked up once per step and stored in the
event's `annotations.enqueue` field; nothing else in the pipeline reads
them.  Erasing that one field from both outputs therefore makes runs that
differ only in the enqueue stream indistinguishable. -/

/-- Erase the stored `enqueue` annotation. -/
def eraseEnqueueAnnotations (a : StepAnnotations) : StepAnnotations :=
  { «end» := a.«end», enqueue := none, start := a.start }

/-- Erase the stored `enqueue` annotation of a step event. -/
def eraseEnqueueStep (se : StepEvent) : StepEvent :=
  { time := se.time,
    event :=
      { toTestStep := se.event.toTestStep,
        absoluteStartTime := se.event.absoluteStartTime,
        absoluteEndTime := se.event.absoluteEndTime,
        duration := se.event.duration,
        index := se.event.index,
        annotations := eraseEnqueueAnnotations se.event.annotations } }

/-- Erase the stored `enqueue` annotation of a composite event (non-step
events carry none). -/
def eraseEnqueueEvent : CompositeTestEvent → CompositeTestEvent
  | .step se => .step (eraseEnqueueStep se)
  | e => e

/-- Erase the stored `enqueue` annotations of a whole result. -/
def eraseEnqueueSections (r : TestSections) : TestSections :=
  { beforeEach := r.beforeEach.map eraseEnqueueEvent,
    testBody := r.testBody.map eraseEnqueueEvent,
    afterEach := r.afterEach.map eraseEnqueueEvent }

lemma eraseEnqueueStep_stepEventOf (startTime : ℤ)
    (annotationsEnd enq enq' annotationsStart : List Annotation)
    (i : ℕ) (s : TestStep) :
    eraseEnqueueStep (stepEventOf startTime annotationsEnd enq
        annotationsStart i s) =
      eraseEnqueueStep (stepEventOf startTime annotationsEnd enq'
        annotationsStart i s) := by
  unfold stepEventOf
  split
  · split <;> rfl
  · rfl

lemma map_mapWithIndex {α β γ : Type} (g : β → γ) (f : ℕ → α → β) :
    ∀ (i : ℕ) (l : List α),
      (mapWithIndex f i l).map g = mapWithIndex (fun j x => g (f j x)) i l := by
  intro i l
  induction l generalizing i with
  | nil => rfl
  | cons a l ih => simp [mapWithIndex, ih]

lemma mapWithIndex_congr {α β : Type} (f f' : ℕ → α → β)
    (h : ∀ (j : ℕ) (x : α), f j x = f' j x) :
    ∀ (i : ℕ) (l : List α), mapWithIndex f i l = mapWithIndex f' i l := by
  intro i l
  induction l generalizing i with
  | nil => rfl
  | cons a l ih => simp [mapWithIndex, ih, h]

/-- Erasing the enqueue field of the normalized steps makes the two runs'
step lists coincide. -/
lemma map_erase_stepsByTime (startTime : ℤ)
    (annotationsEnd enq enq' annotationsStart : List Annotation)
    (steps : List TestStep) :
    (stepsByTime startTime annotationsEnd enq annotationsStart steps).map
        eraseEnqueueStep =
      (stepsByTime startTime annotationsEnd enq' annotationsStart steps).map
        eraseEnqueueStep := by
  unfold stepsByTime
  rw [map_mapWithIndex, map_mapWithIndex]
  exact mapWithIndex_congr _ _
    (fun j x => eraseEnqueueStep_stepEventOf startTime annotationsEnd enq enq'
      annotationsStart j x) 0 steps

lemma timesOf_map_erase (l : List StepEvent) :
    timesOf (l.map eraseEnqueueStep) = timesOf l := by
  show List.foldl timesStep _ _ = List.foldl timesStep _ _
  generalize { min := none, max := 0 : StepTimes } = acc
  induction l generalizing acc with
  | nil => rfl
  | cons x l ih =>
    rw [List.map_cons, List.foldl_cons, List.foldl_cons]
    exact ih _

/-- The two runs compute the same window. -/
lemma timesOf_enqueue_irrelevant (startTime : ℤ)
    (annotationsEnd enq enq' annotationsStart : List Annotation)
    (steps : List TestStep) :
    timesOf (stepsByTime startTime annotationsEnd enq annotationsStart steps) =
      timesOf (stepsByTime startTime annotationsEnd enq' annotationsStart
        steps) := by
  rw [← timesOf_map_erase (stepsByTime startTime annotationsEnd enq
      annotationsStart steps),
    ← timesOf_map_erase (stepsByTime startTime annotationsEnd enq'
      annotationsStart steps),
    map_erase_stepsByTime startTime annotationsEnd enq enq' annotationsStart
      steps]

lemma sortComparator_erase (a b : CompositeTestEvent) :
    sortComparator (eraseEnqueueEvent a) (eraseEnqueueEvent b) =
      sortComparator a b := by
  cases a <;> cases b <;> rfl

lemma sortLe_erase (a b : CompositeTestEvent) :
    sortLe (eraseEnqueueEvent a) (eraseEnqueueEvent b) ↔ sortLe a b := by
  unfold sortLe
  rw [sortComparator_erase]

lemma map_erase_orderedInsert (x : CompositeTestEvent) :
    ∀ L : List CompositeTestEvent,
      (List.orderedInsert sortLe x L).map eraseEnqueueEvent =
        List.orderedInsert sortLe (eraseEnqueueEvent x)
          (L.map eraseEnqueueEvent) := by
  intro L
  induction L with
  | nil => rfl
  | cons b L ih =>
    simp only [List.orderedInsert, List.map_cons]
    by_cases h : sortLe x b
    · rw [if_pos h, if_pos ((sortLe_erase x b).mpr h)]
      rfl
    · rw [if_neg h, if_neg fun h' => h ((sortLe_erase x b).mp h'),
        List.map_cons, ih]

lemma map_erase_insertionSort :
    ∀ l : List CompositeTestEvent,
      (List.insertionSort sortLe l).map eraseEnqueueEvent =
        List.insertionSort sortLe (l.map eraseEnqueueEvent) := by
  intro l
  induction l with
  | nil => rfl
  | cons x l ih =>
    simp only [List.insertionSort, List.map_cons]
    rw [map_erase_orderedInsert x _, ih]

/-- The erased image of the partition state. -/
def eraseState (st : PartitionState) : PartitionState :=
  { beforeEach := st.beforeEach.map eraseEnqueueEvent,
    testBody := st.testBody.map eraseEnqueueEvent,
    afterEach := st.afterEach.map eraseEnqueueEvent,
    currentStack := st.currentStack,
    nonStepStack := st.nonStepStack.map eraseEnqueueEvent }

lemma currentList_eraseState (st : PartitionState) :
    currentList (eraseState st) = (currentList st).map eraseEnqueueEvent := by
  cases h : st.currentStack <;> simp [currentList, eraseState, h]

lemma pushCurrent_eraseState (st : PartitionState)
    (l : List CompositeTestEvent) :
    pushCurrent (eraseState st) (l.map eraseEnqueueEvent) =
      eraseState (pushCurrent st l) := by
  rcases st with ⟨b, t, a, cur, n⟩
  cases cur <;> simp [pushCurrent, eraseState]

lemma flushNonStep_eraseState (st : PartitionState) :
    flushNonStep (eraseState st) = eraseState (flushNonStep st) := by
  show { pushCurrent (eraseState st) (eraseState st).nonStepStack with
      nonStepStack := [] } = _
  rcases st with ⟨b, t, a, cur, n⟩
  cases cur <;> simp [flushNonStep, pushCurrent, eraseState]

lemma ite_flush_eraseState (b : Bool) (st' : PartitionState) :
    (if b = false then flushNonStep (eraseState st') else eraseState st') =
      eraseState (if b = false then flushNonStep st' else st') := by
  cases b with
  | false => simp [flushNonStep_eraseState]
  | true => simp

lemma processEvent_eraseState (st : PartitionState) (e : CompositeTestEvent) :
    processEvent (eraseState st) (eraseEnqueueEvent e) =
      eraseState (processEvent st e) := by
  cases e with
  | step se =>
    show processEvent (eraseState st) (.step (eraseEnqueueStep se)) = _
    simp only [processEvent]
    rw [show stepTarget (eraseState st) (eraseEnqueueStep se).event.hook =
      stepTarget st se.event.hook from rfl]
    rw [show ({ eraseState st with
        currentStack := (stepTarget st se.event.hook).2 }) =
      eraseState ({ st with
        currentStack := (stepTarget st se.event.hook).2 }) from rfl]
    rw [ite_flush_eraseState]
    rw [show [CompositeTestEvent.step (eraseEnqueueStep se)] =
      [CompositeTestEvent.step se].map eraseEnqueueEvent from rfl]
    rw [pushCurrent_eraseState, flushNonStep_eraseState]
  | network ne =>
    show processEvent (eraseState st) (.network ne) = _
    simp only [processEvent, currentList_eraseState, List.length_map]
    by_cases h : (currentList st).length ≠ 0
    · rw [if_pos h, if_pos h]
      simp [eraseState, eraseEnqueueEvent]
    · rw [if_neg h, if_neg h]
  | navigation ve =>
    show processEvent (eraseState st) (.navigation ve) = _
    simp only [processEvent, currentList_eraseState, List.length_map]
    by_cases h : (currentList st).length ≠ 0
    · rw [if_pos h, if_pos h]
      simp [eraseState, eraseEnqueueEvent]
    · rw [if_neg h, if_neg h]

lemma foldl_eraseState (L : List CompositeTestEvent) :
    ∀ st : PartitionState,
      (L.map eraseEnqueueEvent).foldl processEvent (eraseState st) =
        eraseState (L.foldl processEvent st) := by
  induction L with
  | nil => intro st; rfl
  | cons e L ih =>
    intro st
    rw [List.map_cons, List.foldl_cons, List.foldl_cons,
      processEvent_eraseState, ih]

lemma finalizeSections_eraseState (st : PartitionState) :
    finalizeSections (eraseState st) = eraseState (finalizeSections st) := by
  rcases st with ⟨b, t, a, cur, n⟩
  by_cases hp : n.length ≠ 0
  · by_cases ha : a.length ≠ 0
    · simp [finalizeSections, eraseState, hp, ha]
    · by_cases ht : t.length ≠ 0
      · simp [finalizeSections, eraseState, hp, ha, ht]
      · by_cases hb : b.length ≠ 0
        · simp [finalizeSections, eraseState, hp, ha, ht, hb]
        · simp [finalizeSections, eraseState, hp, ha, ht, hb]
  · simp [finalizeSections, eraseState, hp]

lemma eraseEnqueueSections_toSections (st : PartitionState) :
    eraseEnqueueSections (toSections st) = toSections (eraseState st) := rfl

/-- The whole pipeline modulo erased enqueue fields, as a function of the
merged event list. -/
lemma erase_pipeline (L : List CompositeTestEvent) :
    eraseEnqueueSections (toSections (finalizeSections
        (L.foldl processEvent initialState))) =
      toSections (finalizeSections ((L.map eraseEnqueueEvent).foldl
        processEvent initialState)) := by
  have hinit : eraseState initialState = initialState := rfl
  rw [eraseEnqueueSections_toSections, ← finalizeSections_eraseState,
    ← foldl_eraseState, hinit]

/-- The erased merged event lists of the two runs coincide. -/
lemma map_erase_allEventsOf (startTime : ℤ) (steps : List TestStep)
    (navigationEvents : List NavigationAnnotation)
    (enq enq' annotationsEnd annotationsStart : List Annotation)
    (summaries : List RequestSummary) :
    (allEventsOf startTime steps navigationEvents enq annotationsEnd
        annotationsStart summaries).map eraseEnqueueEvent =
      (allEventsOf startTime steps navigationEvents enq' annotationsEnd
        annotationsStart summaries).map eraseEnqueueEvent := by
  unfold allEventsOf
  simp only [List.map_append, List.map_map]
  rw [timesOf_enqueue_irrelevant startTime annotationsEnd enq enq'
    annotationsStart steps]
  have hstep : ∀ enq0 : List Annotation,
      (stepsByTime startTime annotationsEnd enq0 annotationsStart steps).map
          (eraseEnqueueEvent ∘ CompositeTestEvent.step) =
        ((stepsByTime startTime annotationsEnd enq0 annotationsStart
            steps).map eraseEnqueueStep).map CompositeTestEvent.step := by
    intro enq0
    rw [List.map_map]
    rfl
  rw [hstep enq, hstep enq',
    map_erase_stepsByTime startTime annotationsEnd enq enq' annotationsStart
      steps]

/-- C10: two runs that differ only in the enqueue annotation stream produce
identical outputs once the stored `annotations.enqueue` field of step
events is erased — enqueue annotations never influence resolved times, the
window, filtering, sort order or bucket assignment. -/
theorem c10_enqueue_annotations_noninterference (startTime : ℤ)
    (steps : List TestStep) (navigationEvents : List NavigationAnnotation)
    (enq enq' annotationsEnd annotationsStart : List Annotation)
    (summaries : List RequestSummary) :
    eraseEnqueueSections (useGetTestSections startTime steps navigationEvents
        enq annotationsEnd annotationsStart summaries) =
      eraseEnqueueSections (useGetTestSections startTime steps
        navigationEvents enq' annotationsEnd annotationsStart summaries) := by
  simp only [useGetTestSections, sortedEventsOf]
  rw [erase_pipeline, erase_pipeline, map_erase_insertionSort,
    map_erase_insertionSort,
    map_erase_allEventsOf startTime steps navigationEvents enq enq'
      annotationsEnd annotationsStart summaries]

end ReplayTimeline
